import Mathlib

/-!
Verification of the spring centerline generators of the isrishuangdi spring
platform (cad-worker).  The Python sources are shallowly embedded over `ℚ`:
the float arithmetic of the generators is pure rational arithmetic
(additions, multiplications, divisions, `max`/`min`, comparisons), so each
generator's value-level behaviour is mirrored exactly, with IEEE rounding
abstracted to exact rationals.  Trigonometric factors (`cos θ`, `sin θ`)
only enter the X/Y coordinates of sample points; every claim below is about
Z coordinates, turn counts, anchor lengths or control-point offsets, for
which the embedding is exact.  Where a loop-start angle of `±π/2` appears,
its cosine and sine are the exact values `0` and `∓1` and are inlined.
-/

namespace SpringPlatform

/-! ## Compression spring centerline

Embedding of `generate_compression_centerline` (run_export.py, lines 96-165).
The Z coordinate of a sample depends only on the fractional turn count
`n = t * totalCoils`; the three-region case split (bottom dead coils /
active coils / top dead coils) is mirrored verbatim. -/

structure CompressionParams where
  totalCoils : ℚ
  activeCoils : ℚ
  meanDiameter : ℚ
  wireDiameter : ℚ
  freeLength : ℚ
  currentDeflection : ℚ

/-- `dead_coils = total_coils - active_coils` -/
def deadCoils (p : CompressionParams) : ℚ := p.totalCoils - p.activeCoils

/-- `dead_coils_per_end = dead_coils / 2.0` -/
def deadCoilsPerEnd (p : CompressionParams) : ℚ := deadCoils p / 2

/-- `pitch_dead = d` (dead-coil pitch is exactly the wire diameter). -/
def pitchDead (p : CompressionParams) : ℚ := p.wireDiameter

/-- `dead_height = dead_coils * pitch_dead` -/
def deadHeight (p : CompressionParams) : ℚ := deadCoils p * pitchDead p

/-- `Hb = L0 - dead_height` (active-region height in the free state). -/
def hb (p : CompressionParams) : ℚ := p.freeLength - deadHeight p

/-- `Hb_compressed = max(Hb - delta_x, active_coils * pitch_dead)` -/
def hbCompressed (p : CompressionParams) : ℚ :=
  max (hb p - p.currentDeflection) (p.activeCoils * pitchDead p)

/-- `pitch_active_compressed = Hb_compressed / active_coils if active_coils > 0 else d` -/
def pitchActiveCompressed (p : CompressionParams) : ℚ :=
  if 0 < p.activeCoils then hbCompressed p / p.activeCoils else p.wireDiameter

/-- `bottom_dead_height = dead_coils_per_end * pitch_dead` -/
def bottomDeadHeight (p : CompressionParams) : ℚ := deadCoilsPerEnd p * pitchDead p

/-- Case A (bottom dead coils): `z = pitch_dead * n`. -/
def zBottomDead (p : CompressionParams) (n : ℚ) : ℚ := pitchDead p * n

/-- Case C (top dead coils):
`z = bottom_dead_height + Hb_compressed + (n - (total_coils - dead_coils_per_end)) * pitch_dead`. -/
def zTopDead (p : CompressionParams) (n : ℚ) : ℚ :=
  bottomDeadHeight p + hbCompressed p + (n - (p.totalCoils - deadCoilsPerEnd p)) * pitchDead p

/-- Case B (active coils): `z = bottom_dead_height + pitch_active_compressed * (n - dead_coils_per_end)`. -/
def zActive (p : CompressionParams) (n : ℚ) : ℚ :=
  bottomDeadHeight p + pitchActiveCompressed p * (n - deadCoilsPerEnd p)

/-- The three-region case split of the sampling loop (lines 143-155):
`if n <= dead_coils_per_end: A elif n >= total_coils - dead_coils_per_end: C else: B`. -/
def zOfTurn (p : CompressionParams) (n : ℚ) : ℚ :=
  if n ≤ deadCoilsPerEnd p then zBottomDead p n
  else if p.totalCoils - deadCoilsPerEnd p ≤ n then zTopDead p n
  else zActive p n

/-- `num_samples = 800` -/
def compressionNumSamples : ℕ := 800

/-- Turn count of sample `i`: `t = i / num_samples`, `theta = t * 2π * total_coils`,
`n = theta / 2π = t * total_coils`. -/
def turnAt (p : CompressionParams) (i : ℕ) : ℚ :=
  p.totalCoils * (i : ℚ) / (compressionNumSamples : ℚ)

/-- Z coordinate of sample `i` of the compression centerline. -/
def zAt (p : CompressionParams) (i : ℕ) : ℚ := zOfTurn p (turnAt p i)

/-- The Z coordinates of all `num_samples + 1` generated points, in order. -/
def compressionZs (p : CompressionParams) : List ℚ :=
  (List.range (compressionNumSamples + 1)).map (zAt p)

/-- Running minimum of the loop (`min_z` starts at `+inf` and is folded over every
sample, so over the nonempty sample list it equals a fold seeded with the first
sample's Z). -/
def minZ (p : CompressionParams) : ℚ := (compressionZs p).foldl min (zAt p 0)

/-- Running maximum of the loop (`max_z`), seeded analogously. -/
def maxZ (p : CompressionParams) : ℚ := (compressionZs p).foldl max (zAt p 0)

/-- Total Z span of the generated compression centerline. -/
def zSpan (p : CompressionParams) : ℚ := maxZ p - minZ p

/-- Claim C1: for every compression parameter set with `totalCoils > activeCoils > 0`,
the bottom-dead branch and the active branch compute the same Z at the boundary turn
count `n = deadCoilsPerEnd`, within `1e-8`; likewise the active branch and the
top-dead branch agree at `n = totalCoils - deadCoilsPerEnd` within `1e-8`.
(The agreement is in fact exact in exact arithmetic.) -/
theorem dead_active_boundary_continuity (p : CompressionParams)
    (hact : 0 < p.activeCoils) (htot : p.activeCoils < p.totalCoils) :
    |zBottomDead p (deadCoilsPerEnd p) - zActive p (deadCoilsPerEnd p)| ≤ 1e-8 ∧
    |zActive p (p.totalCoils - deadCoilsPerEnd p) -
      zTopDead p (p.totalCoils - deadCoilsPerEnd p)| ≤ 1e-8 := by
  have hpac : pitchActiveCompressed p * p.activeCoils = hbCompressed p := by
    rw [pitchActiveCompressed, if_pos hact]
    field_simp
  constructor
  · have : zBottomDead p (deadCoilsPerEnd p) = zActive p (deadCoilsPerEnd p) := by
      simp [zBottomDead, zActive, bottomDeadHeight]
      ring
    rw [this, sub_self, abs_zero]
    norm_num
  · have hturn : p.totalCoils - deadCoilsPerEnd p - deadCoilsPerEnd p = p.activeCoils := by
      simp only [deadCoilsPerEnd, deadCoils]
      ring
    have : zActive p (p.totalCoils - deadCoilsPerEnd p) =
        zTopDead p (p.totalCoils - deadCoilsPerEnd p) := by
      simp only [zActive, zTopDead, sub_self, zero_mul, add_zero]
      rw [hturn, hpac]
    rw [this, sub_self, abs_zero]
    norm_num

/-- Witness for C1 at the spec's example compression spring
`{wireDiameter=3.2, meanDiameter=24, activeCoils=8, totalCoils=10, freeLength=50}`. -/
theorem dead_active_boundary_continuity_witness :
    let p : CompressionParams := ⟨10, 8, 24, 16/5, 50, 0⟩
    |zBottomDead p (deadCoilsPerEnd p) - zActive p (deadCoilsPerEnd p)| ≤ 1e-8 ∧
    |zActive p (p.totalCoils - deadCoilsPerEnd p) -
      zTopDead p (p.totalCoils - deadCoilsPerEnd p)| ≤ 1e-8 :=
  dead_active_boundary_continuity ⟨10, 8, 24, 16/5, 50, 0⟩ (by norm_num) (by norm_num)

/-- Helper facts used throughout: with `0 < activeCoils < totalCoils` and
`0 < wireDiameter`, the turn-count-to-Z map of the compression generator is
monotone (each branch has nonnegative slope and the branches agree at the
region boundaries). -/
theorem zOfTurn_mono (p : CompressionParams)
    (hd : 0 < p.wireDiameter) (hact : 0 < p.activeCoils)
    (htot : p.activeCoils < p.totalCoils) {n m : ℚ} (hnm : n ≤ m) :
    zOfTurn p n ≤ zOfTurn p m := by
  have he : 0 < deadCoilsPerEnd p := by
    simp only [deadCoilsPerEnd, deadCoils]
    linarith
  have hbc : p.activeCoils * pitchDead p ≤ hbCompressed p := le_max_right _ _
  have hbc0 : 0 < hbCompressed p := by
    have : 0 < p.activeCoils * pitchDead p := mul_pos hact hd
    linarith
  have hpac : pitchActiveCompressed p * p.activeCoils = hbCompressed p := by
    rw [pitchActiveCompressed, if_pos hact]
    field_simp
  have hpac0 : 0 < pitchActiveCompressed p := by
    rw [pitchActiveCompressed, if_pos hact]
    exact div_pos hbc0 hact
  have hsplit : p.totalCoils - deadCoilsPerEnd p - deadCoilsPerEnd p = p.activeCoils := by
    simp only [deadCoilsPerEnd, deadCoils]
    ring
  have hsplit : p.totalCoils - deadCoilsPerEnd p - deadCoilsPerEnd p = p.activeCoils := by
    simp only [deadCoilsPerEnd, deadCoils]
    ring
  by_cases hm1 : m ≤ deadCoilsPerEnd p
  · -- both samples in the bottom dead region
    have hn1 : n ≤ deadCoilsPerEnd p := le_trans hnm hm1
    rw [zOfTurn, if_pos hn1, zOfTurn, if_pos hm1]
    simp only [zBottomDead, pitchDead]
    nlinarith
  · by_cases hm2 : p.totalCoils - deadCoilsPerEnd p ≤ m
    · -- m in the top dead region
      by_cases hn1 : n ≤ deadCoilsPerEnd p
      · rw [zOfTurn, if_pos hn1, zOfTurn, if_neg hm1, if_pos hm2]
        simp only [zBottomDead, zTopDead, bottomDeadHeight, pitchDead]
        nlinarith
      · by_cases hn2 : p.totalCoils - deadCoilsPerEnd p ≤ n
        · rw [zOfTurn, if_neg hn1, if_pos hn2, zOfTurn, if_neg hm1, if_pos hm2]
          simp only [zTopDead, bottomDeadHeight, pitchDead]
          nlinarith
        · rw [zOfTurn, if_neg hn1, if_neg hn2, zOfTurn, if_neg hm1, if_pos hm2]
          simp only [zActive, zTopDead, bottomDeadHeight, pitchDead]
          push_neg at hn1 hn2
          have hub : pitchActiveCompressed p * (n - deadCoilsPerEnd p) ≤
              pitchActiveCompressed p * p.activeCoils := by
            apply mul_le_mul_of_nonneg_left _ (le_of_lt hpac0)
            linarith
          nlinarith
    · -- m in the active region, n in the bottom or active region
      push_neg at hm1 hm2
      by_cases hn1 : n ≤ deadCoilsPerEnd p
      · rw [zOfTurn, if_pos hn1, zOfTurn, if_neg (not_le.mpr hm1), if_neg (not_le.mpr hm2)]
        simp only [zBottomDead, zActive, bottomDeadHeight, pitchDead]
        nlinarith [mul_nonneg (le_of_lt hpac0)
          (show (0 : ℚ) ≤ m - deadCoilsPerEnd p by linarith)]
      · have hn2 : ¬ (p.totalCoils - deadCoilsPerEnd p ≤ n) := by
          push_neg
          linarith
        rw [zOfTurn, if_neg hn1, if_neg hn2, zOfTurn, if_neg (not_le.mpr hm1),
          if_neg (not_le.mpr hm2)]
        simp only [zActive]
        have := mul_le_mul_of_nonneg_left
          (show n - deadCoilsPerEnd p ≤ m - deadCoilsPerEnd p by linarith) (le_of_lt hpac0)
        linarith

/-- Folding `max` over the samples of a monotone `ℕ`-indexed function, seeded with
the first sample, yields the last sample. -/
theorem foldl_max_range_monotone (g : ℕ → ℚ) (hg : ∀ i j : ℕ, i ≤ j → g i ≤ g j) (n : ℕ) :
    ((List.range (n + 1)).map g).foldl max (g 0) = g n := by
  induction n with
  | zero =>
    rw [show List.range 1 = [0] from rfl]
    simp
  | succ k ih =>
    rw [List.range_succ, List.map_append, List.foldl_append, ih]
    simp only [List.map_cons, List.map_nil, List.foldl_cons, List.foldl_nil]
    exact max_eq_right (hg k (k + 1) (Nat.le_succ k))

/-- Folding `min` over the samples of a monotone `ℕ`-indexed function, seeded with
the first sample, yields the first sample. -/
theorem foldl_min_range_monotone (g : ℕ → ℚ) (hg : ∀ i j : ℕ, i ≤ j → g i ≤ g j) (n : ℕ) :
    ((List.range (n + 1)).map g).foldl min (g 0) = g 0 := by
  induction n with
  | zero =>
    rw [show List.range 1 = [0] from rfl]
    simp
  | succ k ih =>
    rw [List.range_succ, List.map_append, List.foldl_append, ih]
    simp only [List.map_cons, List.map_nil, List.foldl_cons, List.foldl_nil]
    exact min_eq_left (le_trans (hg 0 k (Nat.zero_le k)) (hg k (k + 1) (Nat.le_succ k)))

/-- The per-sample Z sequence is monotone in the sample index. -/
theorem zAt_mono (p : CompressionParams)
    (hd : 0 < p.wireDiameter) (hact : 0 < p.activeCoils)
    (htot : p.activeCoils < p.totalCoils) {i j : ℕ} (hij : i ≤ j) :
    zAt p i ≤ zAt p j := by
  have htc : 0 < p.totalCoils := lt_trans hact htot
  apply zOfTurn_mono p hd hact htot
  simp only [turnAt]
  have hij' : (i : ℚ) ≤ (j : ℚ) := by exact_mod_cast hij
  have hden : (0 : ℚ) < (compressionNumSamples : ℚ) := by norm_num [compressionNumSamples]
  exact (div_le_div_iff_of_pos_right hden).mpr (mul_le_mul_of_nonneg_left hij' (le_of_lt htc))

/-- The Z span of the generated centerline equals `zOfTurn` evaluated at
`totalCoils` (the top sample) minus `0` (the bottom sample):
`span = deadHeight + hbCompressed`. -/
theorem zSpan_eq (p : CompressionParams)
    (hd : 0 < p.wireDiameter) (hact : 0 < p.activeCoils)
    (htot : p.activeCoils < p.totalCoils) :
    zSpan p = deadHeight p + hbCompressed p := by
  have he : 0 < deadCoilsPerEnd p := by
    simp only [deadCoilsPerEnd, deadCoils]
    linarith
  have hmono : ∀ i j : ℕ, i ≤ j → zAt p i ≤ zAt p j := fun i j h => zAt_mono p hd hact htot h
  have hmax : maxZ p = zAt p compressionNumSamples := by
    rw [maxZ, compressionZs]
    exact foldl_max_range_monotone (zAt p) hmono compressionNumSamples
  have hmin : minZ p = zAt p 0 := by
    rw [minZ, compressionZs]
    exact foldl_min_range_monotone (zAt p) hmono compressionNumSamples
  have hturn0 : turnAt p 0 = 0 := by simp [turnAt]
  have hturnN : turnAt p compressionNumSamples = p.totalCoils := by
    rw [turnAt]
    norm_num [compressionNumSamples]
  have hz0 : zAt p 0 = 0 := by
    rw [zAt, hturn0, zOfTurn, if_pos (le_of_lt he), zBottomDead, mul_zero]
  have hzN : zAt p compressionNumSamples = deadHeight p + hbCompressed p := by
    have htc : 0 < p.totalCoils := lt_trans hact htot
    have hcond1 : ¬ (p.totalCoils ≤ deadCoilsPerEnd p) := by
      simp only [deadCoilsPerEnd, deadCoils]
      push_neg
      linarith
    have hcond2 : p.totalCoils - deadCoilsPerEnd p ≤ p.totalCoils := by linarith
    rw [zAt, hturnN, zOfTurn, if_neg hcond1, if_pos hcond2]
    simp only [zTopDead, bottomDeadHeight, deadHeight, deadCoilsPerEnd, pitchDead, deadCoils]
    ring
  rw [zSpan, hmax, hmin, hz0, hzN, sub_zero]

/-- Claim C2 (as stated) is false: with `totalCoils = 10 > activeCoils = 8 > 0`,
`wireDiameter = 3.2`, `freeLength = 10` and zero deflection, the free length is
below the solid height, the active region is clamped to `activeCoils * wireDiameter`
and the generated Z span is `32`, not `10 ± 1e-6 * 10`. -/
theorem height_conservation_counterexample :
    ¬ (|zSpan ⟨10, 8, 24, 16/5, 10, 0⟩ - (10 : ℚ)| ≤ 1e-6 * 10) := by
  have h := zSpan_eq ⟨10, 8, 24, 16/5, 10, 0⟩ (by norm_num) (by norm_num) (by norm_num)
  rw [h]
  norm_num [deadHeight, deadCoils, pitchDead, hbCompressed, hb]

/-- Claim C2, amended: for every compression parameter set with
`totalCoils > activeCoils > 0`, positive wire diameter, zero deflection, and a
free length at least the solid height `totalCoils * wireDiameter` (so the active
region is not clamped), the total Z span of the generated centerline equals
`freeLength` to within `1e-6 * freeLength`. -/
theorem height_conservation (p : CompressionParams)
    (hd : 0 < p.wireDiameter) (hact : 0 < p.activeCoils)
    (htot : p.activeCoils < p.totalCoils)
    (hdefl : p.currentDeflection = 0)
    (hsolid : p.totalCoils * p.wireDiameter ≤ p.freeLength) :
    |zSpan p - p.freeLength| ≤ 1e-6 * p.freeLength := by
  have hfree : 0 < p.freeLength := by nlinarith
  have hbc : hbCompressed p = hb p := by
    rw [hbCompressed, hdefl, sub_zero]
    apply max_eq_left
    simp only [hb, deadHeight, deadCoils, pitchDead]
    nlinarith
  rw [zSpan_eq p hd hact htot, hbc]
  have : deadHeight p + hb p = p.freeLength := by
    simp only [hb, deadHeight]
    ring
  rw [this, sub_self, abs_zero]
  nlinarith

/-- Witness for the amended C2 at the spec's example compression spring. -/
theorem height_conservation_witness :
    |zSpan ⟨10, 8, 24, 16/5, 50, 0⟩ - (50 : ℚ)| ≤ 1e-6 * 50 := by
  have h := height_conservation ⟨10, 8, 24, 16/5, 50, 0⟩ (by norm_num) (by norm_num)
    (by norm_num) (by norm_num) (by norm_num)
  simpa using h

/-! ## Extension spring body centerline

Embedding of `generate_extension_body_centerline` (run_export.py, lines 775-816):
`z = t * extended_length` with `extended_length = activeCoils * wireDiameter +
currentExtension` and `t = i / num_samples`, `num_samples = max(200, int(Na*36))`. -/

structure ExtensionParams where
  wireDiameter : ℚ
  outerDiameter : ℚ
  activeCoils : ℚ
  currentExtension : ℚ

/-- `solid_body_length = Na * d` (close-wound body in the free state). -/
def solidBodyLength (q : ExtensionParams) : ℚ := q.activeCoils * q.wireDiameter

/-- `extended_length = solid_body_length + current_extension` -/
def extendedLength (q : ExtensionParams) : ℚ := solidBodyLength q + q.currentExtension

/-- `num_samples = max(200, int(Na * 36))`; Python `int` truncates toward zero, which
for `Na ≥ 0` is the floor, and for negative arguments both sides collapse to `200`. -/
def extensionNumSamples (q : ExtensionParams) : ℕ :=
  max 200 (Int.toNat ⌊q.activeCoils * 36⌋)

/-- Z coordinate of sample `i` of the extension body: `z = t * extended_length`. -/
def extZAt (q : ExtensionParams) (i : ℕ) : ℚ :=
  ((i : ℚ) / (extensionNumSamples q : ℚ)) * extendedLength q

/-- The Z coordinates of all generated extension-body points, in order. -/
def extensionZs (q : ExtensionParams) : List ℚ :=
  (List.range (extensionNumSamples q + 1)).map (extZAt q)

set_option maxRecDepth 8000 in
/-- Claim C5: every compression centerline (nonnegative deflection, positive wire
diameter, `totalCoils > activeCoils > 0`) and every extension body centerline
(nonnegative wire diameter, coil count and extension) has monotonically
non-decreasing Z: `z[i] ≤ z[i+1]` for all consecutive samples. -/
theorem monotonic_z (p : CompressionParams) (q : ExtensionParams)
    (hd : 0 < p.wireDiameter) (hdefl : 0 ≤ p.currentDeflection)
    (hact : 0 < p.activeCoils) (htot : p.activeCoils < p.totalCoils)
    (hqd : 0 ≤ q.wireDiameter) (hqa : 0 ≤ q.activeCoils) (hqe : 0 ≤ q.currentExtension) :
    List.Chain' (· ≤ ·) (compressionZs p) ∧ List.Chain' (· ≤ ·) (extensionZs q) := by
  constructor
  · rw [compressionZs]
    apply List.chain'_map_of_chain' (zAt p)
      (fun i j h => zAt_mono p hd hact htot (le_of_lt h))
    exact (List.chain'_range_succ _ _).mpr fun i _ => Nat.lt_succ_self i
  · rw [extensionZs]
    have hlen : 0 ≤ extendedLength q := by
      rw [extendedLength, solidBodyLength]
      nlinarith
    have hns : (0 : ℚ) < (extensionNumSamples q : ℚ) := by
      have : (200 : ℕ) ≤ extensionNumSamples q := le_max_left _ _
      have : (200 : ℚ) ≤ (extensionNumSamples q : ℚ) := by exact_mod_cast this
      linarith
    apply List.chain'_map_of_chain' (extZAt q)
    · intro i j hij
      rw [extZAt, extZAt]
      apply mul_le_mul_of_nonneg_right _ hlen
      apply (div_le_div_iff_of_pos_right hns).mpr
      exact_mod_cast le_of_lt hij
    · exact (List.chain'_range_succ _ _).mpr fun i _ => Nat.lt_succ_self i

set_option maxRecDepth 4000 in
/-- Witness for C5 at the spec's example compression spring and a default-valued
extension body. -/
theorem monotonic_z_witness :
    List.Chain' (· ≤ ·) (compressionZs ⟨10, 8, 24, 16/5, 50, 5⟩) ∧
    List.Chain' (· ≤ ·) (extensionZs ⟨2, 18, 10, 3⟩) :=
  monotonic_z ⟨10, 8, 24, 16/5, 50, 5⟩ ⟨2, 18, 10, 3⟩ (by norm_num) (by norm_num)
    (by norm_num) (by norm_num) (by norm_num) (by norm_num) (by norm_num)

/-! ## Blended-anchor turn-count mapping

Embedding of `blended_anchor_turns_map` (run_export.py, lines 2259-2305) together
with its helper `clamp` (line 58).  The Python endpoint pinning
`T[0] = 0.0; T[-1] = totalCoils` is modelled by `setHead`/`setLast`. -/

/-- `clamp(x, a, b) = max(a, min(b, x))` (run_export.py line 58). -/
def clamp (x a b : ℚ) : ℚ := max a (min b x)

/-- `T[0] = v` on a Python list (no-op on `[]`, where Python would raise;
callers always pass the nonempty accumulated-length list). -/
def setHead (l : List ℚ) (v : ℚ) : List ℚ :=
  match l with
  | [] => []
  | _ :: t => v :: t

/-- `T[-1] = v` on a Python list (no-op on `[]`, as for `setHead`). -/
def setLast (l : List ℚ) (v : ℚ) : List ℚ :=
  match l with
  | [] => []
  | [_] => [v]
  | a :: t => a :: setLast t v

/-- Uncapped blended anchor length for one end (lines 2269-2276):
`uniform_share * (1-k) + solid_share * k`, with the uniform share guarded by
`totalCoils > 0` as in the source. -/
def uncappedAnchor (Ltot d dead totalCoils k : ℚ) : ℚ :=
  (if 0 < totalCoils then (dead / totalCoils) * Ltot else 0) * (1 - k) + (dead * d) * k

/-- The anchor pair after the cap step (lines 2278-2283): if
`anchorLs + anchorLe > capRatio * Ltot` and the sum exceeds `1e-12`, both anchors
are multiplied by `maxAllowed / sumLen`.  `k` is clamped to `[0,1]` first
(line 2267). -/
def blendedAnchors (Ltot d nActive deadStart deadEnd k capRatio : ℚ) : ℚ × ℚ :=
  let kc := clamp k 0 1
  let totalCoils := nActive + deadStart + deadEnd
  let aLs := uncappedAnchor Ltot d deadStart totalCoils kc
  let aLe := uncappedAnchor Ltot d deadEnd totalCoils kc
  if capRatio * Ltot < aLs + aLe ∧ 1e-12 < aLs + aLe then
    (aLs * (capRatio * Ltot / (aLs + aLe)), aLe * (capRatio * Ltot / (aLs + aLe)))
  else (aLs, aLe)

/-- Turn count assigned to one accumulated length `curL` (lines 2290-2301):
start dead zone / end dead zone / active zone, with `1e-9` tolerance bands on
the two thresholds. -/
def blendedTurnAt (deadStart nActive deadEnd Ls Le Lb : ℚ) (curL : ℚ) : ℚ :=
  if curL ≤ Ls + 1e-9 then deadStart * (curL / max 1e-9 Ls)
  else if Lb - 1e-9 ≤ curL then (deadStart + nActive) + deadEnd * clamp ((curL - Lb) / max 1e-9 Le) 0 1
  else deadStart + nActive * clamp ((curL - Ls) / max 1e-9 (Lb - Ls)) 0 1

/-- The structured return value of `blended_anchor_turns_map`:
`(T, totalCoils, Ls, Le, Lb)`. -/
structure BlendedAnchorResult where
  T : List ℚ
  totalCoils : ℚ
  Ls : ℚ
  Le : ℚ
  Lb : ℚ

/-- Embedding of `blended_anchor_turns_map(L, Ltot, d, n_active, deadStart, deadEnd,
k, capRatio)`.  The degenerate guard returns all-zero turns (and `0.0` for every
scalar, as in the source); otherwise the anchors are blended and capped, each
accumulated length is mapped through the three-zone ramp, and the endpoints are
pinned to `0` and `totalCoils`. -/
def blendedAnchorTurnsMap (L : List ℚ) (Ltot d nActive deadStart deadEnd k capRatio : ℚ) :
    BlendedAnchorResult :=
  let totalCoils := nActive + deadStart + deadEnd
  if totalCoils ≤ 1e-12 ∨ Ltot ≤ 1e-12 then
    ⟨L.map (fun _ => 0), 0, 0, 0, 0⟩
  else
    let A := blendedAnchors Ltot d nActive deadStart deadEnd k capRatio
    let Lb := Ltot - A.2
    ⟨setLast (setHead (L.map (blendedTurnAt deadStart nActive deadEnd A.1 A.2 Lb)) 0) totalCoils,
      totalCoils, A.1, A.2, Lb⟩

theorem setHead_length (l : List ℚ) (v : ℚ) : (setHead l v).length = l.length := by
  cases l <;> rfl

theorem setHead_head? (l : List ℚ) (v : ℚ) (h : l ≠ []) : (setHead l v).head? = some v := by
  cases l with
  | nil => exact absurd rfl h
  | cons a t => rfl

theorem setLast_getLast? (l : List ℚ) (v : ℚ) (h : l ≠ []) : (setLast l v).getLast? = some v := by
  induction l with
  | nil => exact absurd rfl h
  | cons a t ih =>
    cases t with
    | nil => rfl
    | cons b t2 =>
      have hne : setLast (b :: t2) v ≠ [] := by
        cases t2 <;> simp [setLast]
      obtain ⟨c, cs, hc⟩ := List.exists_cons_of_ne_nil hne
      rw [show setLast (a :: b :: t2) v = a :: setLast (b :: t2) v from rfl, hc,
        List.getLast?_cons_cons, ← hc]
      exact ih (by simp)

theorem setLast_head? (l : List ℚ) (v : ℚ) (h : 2 ≤ l.length) : (setLast l v).head? = l.head? := by
  cases l with
  | nil => simp at h
  | cons a t =>
    cases t with
    | nil => simp at h
    | cons b t2 => rfl

/-- Claim C3 as stated is false: with `nActive = 1e-13` (so `totalCoils = 1e-13 > 0`),
`Ltot = 1 > 0` and `L = [0, 1]`, the degenerate guard `totalCoils <= 1e-12` fires and
the returned turn list is all zeros, so `T[last]` is `0`, not `totalCoils`. -/
theorem blended_anchor_pinning_counterexample :
    ¬ ((blendedAnchorTurnsMap [0, 1] 1 1 1e-13 0 0 0 (95/100)).T.getLast? =
      some ((1e-13 : ℚ) + 0 + 0)) := by
  have hT : (blendedAnchorTurnsMap [0, 1] 1 1 1e-13 0 0 0 (95/100)).T = [0, 0] := by
    simp only [blendedAnchorTurnsMap]
    rw [if_pos (Or.inl (by norm_num))]
    rfl
  rw [hT, show ([0, 0] : List ℚ).getLast? = some 0 from rfl]
  simp only [Option.some_inj]
  norm_num

/-- Claim C3, amended: whenever the degenerate guard does not fire — i.e.
`totalCoils = nActive + deadStart + deadEnd > 1e-12` and `Ltot > 1e-12` (rather than
merely `> 0`) — and the backbone has at least two points, the returned turn-count
list is pinned exactly: `T[0] = 0` and `T[last] = totalCoils`. -/
theorem blended_anchor_boundary_pinning (L : List ℚ)
    (Ltot d nActive deadStart deadEnd k capRatio : ℚ)
    (hlen : 2 ≤ L.length)
    (htc : 1e-12 < nActive + deadStart + deadEnd) (hLtot : 1e-12 < Ltot) :
    (blendedAnchorTurnsMap L Ltot d nActive deadStart deadEnd k capRatio).T.head? = some 0 ∧
    (blendedAnchorTurnsMap L Ltot d nActive deadStart deadEnd k capRatio).T.getLast? =
      some (nActive + deadStart + deadEnd) := by
  have hguard : ¬ (nActive + deadStart + deadEnd ≤ 1e-12 ∨ Ltot ≤ 1e-12) := by
    push_neg
    exact ⟨htc, hLtot⟩
  rw [blendedAnchorTurnsMap]
  simp only [if_neg hguard]
  set f := blendedTurnAt deadStart nActive deadEnd
    (blendedAnchors Ltot d nActive deadStart deadEnd k capRatio).1
    (blendedAnchors Ltot d nActive deadStart deadEnd k capRatio).2
    (Ltot - (blendedAnchors Ltot d nActive deadStart deadEnd k capRatio).2) with hf
  have hmaplen : 2 ≤ (L.map f).length := by
    rw [List.length_map]
    exact hlen
  have hmapne : L.map f ≠ [] := by
    intro hnil
    rw [hnil] at hmaplen
    simp at hmaplen
  constructor
  · rw [setLast_head? _ _ (by rw [setHead_length]; exact hmaplen),
      setHead_head? _ _ hmapne]
  · apply setLast_getLast?
    intro hnil
    have hl0 := congrArg List.length hnil
    rw [setHead_length, List.length_map] at hl0
    simp only [List.length_nil] at hl0
    omega

/-- Witness for the amended C3 at a small backbone with dead coils at both ends. -/
theorem blended_anchor_boundary_pinning_witness :
    (blendedAnchorTurnsMap [0, 1/2, 1] 1 1 5 1 1 (1/2) (95/100)).T.head? = some 0 ∧
    (blendedAnchorTurnsMap [0, 1/2, 1] 1 1 5 1 1 (1/2) (95/100)).T.getLast? =
      some ((5 : ℚ) + 1 + 1) :=
  blended_anchor_boundary_pinning [0, 1/2, 1] 1 1 5 1 1 (1/2) (95/100)
    (by norm_num) (by norm_num) (by norm_num)

/-- The capped anchor pair never exceeds `capRatio * Ltot + 1e-12` in sum.  (The
`1e-12` slack is genuinely needed: when the uncapped sum lies in
`(capRatio*Ltot, 1e-12]` the source skips the scaling.) -/
theorem blendedAnchors_sum_le (Ltot d nActive deadStart deadEnd k capRatio : ℚ)
    (hcap : 0 ≤ capRatio) (hLtot : 0 < Ltot) :
    (blendedAnchors Ltot d nActive deadStart deadEnd k capRatio).1 +
      (blendedAnchors Ltot d nActive deadStart deadEnd k capRatio).2 ≤
      capRatio * Ltot + 1e-12 := by
  have hma : 0 ≤ capRatio * Ltot := mul_nonneg hcap (le_of_lt hLtot)
  simp only [blendedAnchors]
  set aLs := uncappedAnchor Ltot d deadStart (nActive + deadStart + deadEnd) (clamp k 0 1)
  set aLe := uncappedAnchor Ltot d deadEnd (nActive + deadStart + deadEnd) (clamp k 0 1)
  by_cases hc : capRatio * Ltot < aLs + aLe ∧ 1e-12 < aLs + aLe
  · rw [if_pos hc]
    have hsum : aLs + aLe ≠ 0 := by
      have := hc.2
      intro h0
      rw [h0] at this
      norm_num at this
    have : aLs * (capRatio * Ltot / (aLs + aLe)) + aLe * (capRatio * Ltot / (aLs + aLe)) =
        capRatio * Ltot := by
      field_simp
      ring
    simp only
    rw [this]
    norm_num
  · rw [if_neg hc]
    push_neg at hc
    simp only
    by_cases hlt : capRatio * Ltot < aLs + aLe
    · have := hc hlt
      linarith
    · push_neg at hlt
      linarith

/-- When the uncapped blended anchors exceed the cap (and the `1e-12` guard), both
anchors are scaled by the same proportional factor `capRatio*Ltot / sum`. -/
theorem blendedAnchors_scaled (Ltot d nActive deadStart deadEnd k capRatio : ℚ)
    (hexceed : capRatio * Ltot <
      uncappedAnchor Ltot d deadStart (nActive + deadStart + deadEnd) (clamp k 0 1) +
      uncappedAnchor Ltot d deadEnd (nActive + deadStart + deadEnd) (clamp k 0 1))
    (hbig : 1e-12 <
      uncappedAnchor Ltot d deadStart (nActive + deadStart + deadEnd) (clamp k 0 1) +
      uncappedAnchor Ltot d deadEnd (nActive + deadStart + deadEnd) (clamp k 0 1)) :
    blendedAnchors Ltot d nActive deadStart deadEnd k capRatio =
      (uncappedAnchor Ltot d deadStart (nActive + deadStart + deadEnd) (clamp k 0 1) *
        (capRatio * Ltot /
          (uncappedAnchor Ltot d deadStart (nActive + deadStart + deadEnd) (clamp k 0 1) +
           uncappedAnchor Ltot d deadEnd (nActive + deadStart + deadEnd) (clamp k 0 1))),
       uncappedAnchor Ltot d deadEnd (nActive + deadStart + deadEnd) (clamp k 0 1) *
        (capRatio * Ltot /
          (uncappedAnchor Ltot d deadStart (nActive + deadStart + deadEnd) (clamp k 0 1) +
           uncappedAnchor Ltot d deadEnd (nActive + deadStart + deadEnd) (clamp k 0 1)))) := by
  simp only [blendedAnchors]
  rw [if_pos ⟨hexceed, hbig⟩]

/-- In the non-degenerate path the returned `Ls`/`Le` are exactly the capped
anchor pair. -/
theorem blendedAnchorTurnsMap_Ls_Le (L : List ℚ)
    (Ltot d nActive deadStart deadEnd k capRatio : ℚ)
    (hguard : ¬ (nActive + deadStart + deadEnd ≤ 1e-12 ∨ Ltot ≤ 1e-12)) :
    (blendedAnchorTurnsMap L Ltot d nActive deadStart deadEnd k capRatio).Ls =
      (blendedAnchors Ltot d nActive deadStart deadEnd k capRatio).1 ∧
    (blendedAnchorTurnsMap L Ltot d nActive deadStart deadEnd k capRatio).Le =
      (blendedAnchors Ltot d nActive deadStart deadEnd k capRatio).2 := by
  rw [blendedAnchorTurnsMap]
  simp only [if_neg hguard]
  refine ⟨?_, ?_⟩ <;> trivial

/-- Claim C4, amended: for every input with `Ltot > 0` and `capRatio ≥ 0`, the final
blended anchors satisfy `anchorLs + anchorLe ≤ capRatio * Ltot + 1e-12` (the claim's
bare `≤ capRatio*Ltot` can fail by at most the `1e-12` guard below which the source
skips scaling), and whenever the uncapped sum exceeds both `capRatio * Ltot` and
`1e-12` (with the degenerate guard not firing), both anchors are scaled by the same
proportional factor `capRatio*Ltot / sum`. -/
theorem anchor_cap (L : List ℚ) (Ltot d nActive deadStart deadEnd k capRatio : ℚ)
    (hcap : 0 ≤ capRatio) (hLtot : 0 < Ltot) :
    ((blendedAnchorTurnsMap L Ltot d nActive deadStart deadEnd k capRatio).Ls +
      (blendedAnchorTurnsMap L Ltot d nActive deadStart deadEnd k capRatio).Le ≤
      capRatio * Ltot + 1e-12) ∧
    (1e-12 < nActive + deadStart + deadEnd → 1e-12 < Ltot →
      capRatio * Ltot <
        uncappedAnchor Ltot d deadStart (nActive + deadStart + deadEnd) (clamp k 0 1) +
        uncappedAnchor Ltot d deadEnd (nActive + deadStart + deadEnd) (clamp k 0 1) →
      1e-12 <
        uncappedAnchor Ltot d deadStart (nActive + deadStart + deadEnd) (clamp k 0 1) +
        uncappedAnchor Ltot d deadEnd (nActive + deadStart + deadEnd) (clamp k 0 1) →
      (blendedAnchorTurnsMap L Ltot d nActive deadStart deadEnd k capRatio).Ls =
        uncappedAnchor Ltot d deadStart (nActive + deadStart + deadEnd) (clamp k 0 1) *
        (capRatio * Ltot /
          (uncappedAnchor Ltot d deadStart (nActive + deadStart + deadEnd) (clamp k 0 1) +
           uncappedAnchor Ltot d deadEnd (nActive + deadStart + deadEnd) (clamp k 0 1))) ∧
      (blendedAnchorTurnsMap L Ltot d nActive deadStart deadEnd k capRatio).Le =
        uncappedAnchor Ltot d deadEnd (nActive + deadStart + deadEnd) (clamp k 0 1) *
        (capRatio * Ltot /
          (uncappedAnchor Ltot d deadStart (nActive + deadStart + deadEnd) (clamp k 0 1) +
           uncappedAnchor Ltot d deadEnd (nActive + deadStart + deadEnd) (clamp k 0 1)))) := by
  by_cases hg : nActive + deadStart + deadEnd ≤ 1e-12 ∨ Ltot ≤ 1e-12
  · have hr : blendedAnchorTurnsMap L Ltot d nActive deadStart deadEnd k capRatio =
        ⟨L.map (fun _ => 0), 0, 0, 0, 0⟩ := by
      rw [blendedAnchorTurnsMap]
      simp only [if_pos hg]
    rw [hr]
    have hma : 0 ≤ capRatio * Ltot := mul_nonneg hcap (le_of_lt hLtot)
    constructor
    · simp only
      norm_num
      linarith
    · intro htc hL _ _
      exfalso
      rcases hg with hg | hg <;> linarith
  · obtain ⟨hLs, hLe⟩ := blendedAnchorTurnsMap_Ls_Le L Ltot d nActive deadStart deadEnd k capRatio hg
    constructor
    · rw [hLs, hLe]
      exact blendedAnchors_sum_le Ltot d nActive deadStart deadEnd k capRatio hcap hLtot
    · intro _ _ hexceed hbig
      rw [hLs, hLe,
        blendedAnchors_scaled Ltot d nActive deadStart deadEnd k capRatio hexceed hbig]
      exact ⟨rfl, rfl⟩

/-- Witness for C4 on an input that actually triggers the proportional scaling:
`deadStart = deadEnd = 10`, `nActive = 1`, `d = 1`, `k = 1`, `Ltot = 10`, so the
uncapped anchors sum to `20 > 0.95 * 10`. -/
theorem anchor_cap_witness :
    ((blendedAnchorTurnsMap [0, 5, 10] 10 1 1 10 10 1 (95/100)).Ls +
      (blendedAnchorTurnsMap [0, 5, 10] 10 1 1 10 10 1 (95/100)).Le ≤
      (95/100) * 10 + 1e-12) ∧
    (blendedAnchorTurnsMap [0, 5, 10] 10 1 1 10 10 1 (95/100)).Ls =
      uncappedAnchor 10 1 10 ((1 : ℚ) + 10 + 10) (clamp 1 0 1) *
      ((95/100) * 10 /
        (uncappedAnchor 10 1 10 ((1 : ℚ) + 10 + 10) (clamp 1 0 1) +
         uncappedAnchor 10 1 10 ((1 : ℚ) + 10 + 10) (clamp 1 0 1))) := by
  have hu : uncappedAnchor 10 1 10 ((1 : ℚ) + 10 + 10) (clamp 1 0 1) = 10 := by
    rw [clamp, uncappedAnchor, if_pos (by norm_num)]
    norm_num
  have h := anchor_cap [0, 5, 10] 10 1 1 10 10 1 (95/100) (by norm_num) (by norm_num)
  refine ⟨h.1, ?_⟩
  have h2 := h.2 (by norm_num) (by norm_num) (by rw [hu]; norm_num) (by rw [hu]; norm_num)
  exact h2.1

/-- Claim C4 as stated (final sum `≤ capRatio * Ltot` with no epsilon) is false:
with `Ltot = 1.01e-12 > 1e-12`, `capRatio = 0.95`, `k = 1`, `deadStart = deadEnd = 1`,
`nActive = 1` and `d = 5e-13`, the uncapped anchors sum to `1e-12`, which exceeds
`capRatio * Ltot = 9.595e-13` but not the `1e-12` scaling guard, so the source skips
the proportional scaling and returns a sum above the cap. -/
theorem anchor_cap_counterexample :
    ¬ ((blendedAnchorTurnsMap [0, 1.01e-12] 1.01e-12 5e-13 1 1 1 1 (95/100)).Ls +
      (blendedAnchorTurnsMap [0, 1.01e-12] 1.01e-12 5e-13 1 1 1 1 (95/100)).Le ≤
      (95/100) * 1.01e-12) := by
  have hguard : ¬ ((1 : ℚ) + 1 + 1 ≤ 1e-12 ∨ (1.01e-12 : ℚ) ≤ 1e-12) := by
    push_neg
    constructor <;> norm_num
  have hA : blendedAnchors 1.01e-12 5e-13 1 1 1 1 (95/100) = (5e-13, 5e-13) := by
    have hclamp : clamp 1 0 1 = 1 := by
      rw [clamp]
      norm_num
    have hu : uncappedAnchor 1.01e-12 5e-13 1 ((1 : ℚ) + 1 + 1) 1 = 5e-13 := by
      rw [uncappedAnchor, if_pos (by norm_num)]
      norm_num
    simp only [blendedAnchors, hclamp, hu]
    rw [if_neg fun hc => absurd hc.2 (by norm_num)]
  obtain ⟨hLs, hLe⟩ :=
    blendedAnchorTurnsMap_Ls_Le [0, 1.01e-12] 1.01e-12 5e-13 1 1 1 1 (95/100) hguard
  rw [hLs, hLe, hA]
  norm_num

theorem clamp01_nonneg (u : ℚ) : 0 ≤ clamp u 0 1 := le_max_left 0 _

theorem clamp01_le_one (u : ℚ) : clamp u 0 1 ≤ 1 :=
  max_le (by norm_num) (min_le_left 1 u)

theorem clamp01_mono {u v : ℚ} (h : u ≤ v) : clamp u 0 1 ≤ clamp v 0 1 :=
  max_le_max (le_refl 0) (min_le_min (le_refl 1) h)

theorem blendedTurnAt_nonneg (dS nA dE Ls Le Lb curL : ℚ)
    (hdS : 0 ≤ dS) (hnA : 0 ≤ nA) (hdE : 0 ≤ dE) (h0 : 0 ≤ curL) :
    0 ≤ blendedTurnAt dS nA dE Ls Le Lb curL := by
  have hM : (0 : ℚ) < max 1e-9 Ls := lt_of_lt_of_le (by norm_num) (le_max_left _ _)
  rw [blendedTurnAt]
  split_ifs
  · exact mul_nonneg hdS (div_nonneg h0 (le_of_lt hM))
  · exact add_nonneg (add_nonneg hdS hnA) (mul_nonneg hdE (clamp01_nonneg _))
  · exact add_nonneg hdS (mul_nonneg hnA (clamp01_nonneg _))

theorem blendedTurnAt_le_total (dS nA dE Ls Le Lb curL : ℚ)
    (hdS : 0 ≤ dS) (hnA : 0 ≤ nA) (hdE : 0 ≤ dE)
    (hband : curL ≤ Ls + 1e-9 → curL ≤ Ls) :
    blendedTurnAt dS nA dE Ls Le Lb curL ≤ dS + nA + dE := by
  have hM : (0 : ℚ) < max 1e-9 Ls := lt_of_lt_of_le (by norm_num) (le_max_left _ _)
  rw [blendedTurnAt]
  split_ifs with h1 h2
  · have hdiv : curL / max 1e-9 Ls ≤ 1 :=
      (div_le_one hM).mpr (le_trans (hband h1) (le_max_right _ _))
    have := mul_le_mul_of_nonneg_left hdiv hdS
    nlinarith
  · have := mul_le_mul_of_nonneg_left (clamp01_le_one ((curL - Lb) / max 1e-9 Le)) hdE
    nlinarith
  · have := mul_le_mul_of_nonneg_left (clamp01_le_one ((curL - Ls) / max 1e-9 (Lb - Ls))) hnA
    nlinarith

theorem blendedTurnAt_mono (dS nA dE Ls Le Lb x y : ℚ)
    (hdS : 0 ≤ dS) (hnA : 0 ≤ nA) (hdE : 0 ≤ dE)
    (hx0 : 0 ≤ x) (hxy : x ≤ y) (hbandx : x ≤ Ls + 1e-9 → x ≤ Ls) :
    blendedTurnAt dS nA dE Ls Le Lb x ≤ blendedTurnAt dS nA dE Ls Le Lb y := by
  have hM : (0 : ℚ) < max 1e-9 Ls := lt_of_lt_of_le (by norm_num) (le_max_left _ _)
  have hME : (0 : ℚ) < max 1e-9 Le := lt_of_lt_of_le (by norm_num) (le_max_left _ _)
  have hAR : (0 : ℚ) < max 1e-9 (Lb - Ls) := lt_of_lt_of_le (by norm_num) (le_max_left _ _)
  have hfx1 : x ≤ Ls + 1e-9 → dS * (x / max 1e-9 Ls) ≤ dS := by
    intro h1
    have hdiv : x / max 1e-9 Ls ≤ 1 :=
      (div_le_one hM).mpr (le_trans (hbandx h1) (le_max_right _ _))
    have := mul_le_mul_of_nonneg_left hdiv hdS
    linarith
  by_cases hy1 : y ≤ Ls + 1e-9
  · have hx1 : x ≤ Ls + 1e-9 := le_trans hxy hy1
    rw [blendedTurnAt, if_pos hx1, blendedTurnAt, if_pos hy1]
    exact mul_le_mul_of_nonneg_left
      ((div_le_div_iff_of_pos_right hM).mpr hxy) hdS
  · by_cases hy2 : Lb - 1e-9 ≤ y
    · by_cases hx1 : x ≤ Ls + 1e-9
      · rw [blendedTurnAt, if_pos hx1, blendedTurnAt, if_neg hy1, if_pos hy2]
        have h1 := hfx1 hx1
        have h2 : 0 ≤ dE * clamp ((y - Lb) / max 1e-9 Le) 0 1 :=
          mul_nonneg hdE (clamp01_nonneg _)
        linarith
      · by_cases hx2 : Lb - 1e-9 ≤ x
        · rw [blendedTurnAt, if_neg hx1, if_pos hx2, blendedTurnAt, if_neg hy1, if_pos hy2]
          have hc := clamp01_mono
            ((div_le_div_iff_of_pos_right hME).mpr (by linarith : x - Lb ≤ y - Lb))
          have := mul_le_mul_of_nonneg_left hc hdE
          linarith
        · rw [blendedTurnAt, if_neg hx1, if_neg hx2, blendedTurnAt, if_neg hy1, if_pos hy2]
          have h1 := mul_le_mul_of_nonneg_left
            (clamp01_le_one ((x - Ls) / max 1e-9 (Lb - Ls))) hnA
          have h2 : 0 ≤ dE * clamp ((y - Lb) / max 1e-9 Le) 0 1 :=
            mul_nonneg hdE (clamp01_nonneg _)
          linarith
    · push_neg at hy1 hy2
      by_cases hx1 : x ≤ Ls + 1e-9
      · rw [blendedTurnAt, if_pos hx1, blendedTurnAt, if_neg (not_le.mpr hy1),
          if_neg (not_le.mpr hy2)]
        have h1 := hfx1 hx1
        have h2 : 0 ≤ nA * clamp ((y - Ls) / max 1e-9 (Lb - Ls)) 0 1 :=
          mul_nonneg hnA (clamp01_nonneg _)
        linarith
      · have hx2 : ¬ (Lb - 1e-9 ≤ x) := by
          push_neg
          linarith
        rw [blendedTurnAt, if_neg hx1, if_neg hx2, blendedTurnAt, if_neg (not_le.mpr hy1),
          if_neg (not_le.mpr hy2)]
        have hc := clamp01_mono
          ((div_le_div_iff_of_pos_right hAR).mpr (by linarith : x - Ls ≤ y - Ls))
        have := mul_le_mul_of_nonneg_left hc hnA
        linarith

/-- Mapping `blendedTurnAt` over a sorted list of nonnegative accumulated lengths
preserves sortedness, provided no length falls strictly inside the start tolerance
band `(Ls, Ls + 1e-9]`. -/
theorem chain'_map_blendedTurnAt (dS nA dE Ls Le Lb : ℚ)
    (hdS : 0 ≤ dS) (hnA : 0 ≤ nA) (hdE : 0 ≤ dE) (l : List ℚ)
    (hchain : List.Chain' (· ≤ ·) l) (hpos : ∀ x ∈ l, 0 ≤ x)
    (hband : ∀ x ∈ l, x ≤ Ls + 1e-9 → x ≤ Ls) :
    List.Chain' (· ≤ ·) (l.map (blendedTurnAt dS nA dE Ls Le Lb)) := by
  induction l with
  | nil => simp
  | cons a t ih =>
    cases t with
    | nil => simp
    | cons b t2 =>
      rw [List.map_cons, List.map_cons, List.chain'_cons]
      refine ⟨?_, ?_⟩
      · exact blendedTurnAt_mono dS nA dE Ls Le Lb a b hdS hnA hdE
          (hpos a (by simp)) (List.chain'_cons.mp hchain).1
          (hband a (by simp))
      · rw [← List.map_cons]
        exact ih (List.chain'_cons.mp hchain).2
          (fun x hx => hpos x (by simp [hx]))
          (fun x hx => hband x (by simp [hx]))

theorem chain'_setHead (l : List ℚ) (v : ℚ)
    (hchain : List.Chain' (· ≤ ·) l) (hlow : ∀ x ∈ l, v ≤ x) :
    List.Chain' (· ≤ ·) (setHead l v) := by
  cases l with
  | nil => simp [setHead]
  | cons a t =>
    rw [show setHead (a :: t) v = v :: t from rfl, List.chain'_cons']
    refine ⟨?_, (List.chain'_cons'.mp hchain).2⟩
    intro y hy
    apply hlow
    cases t with
    | nil => simp at hy
    | cons b t2 =>
      simp only [List.head?_cons, Option.mem_def, Option.some_inj] at hy
      simp [hy]

theorem chain'_setLast (l : List ℚ) (v : ℚ)
    (hchain : List.Chain' (· ≤ ·) l) (hhi : ∀ x ∈ l, x ≤ v) :
    List.Chain' (· ≤ ·) (setLast l v) := by
  induction l with
  | nil => simp [setLast]
  | cons a t ih =>
    cases t with
    | nil => simp [setLast]
    | cons b t2 =>
      rw [show setLast (a :: b :: t2) v = a :: setLast (b :: t2) v from rfl,
        List.chain'_cons']
      refine ⟨?_, ih (List.chain'_cons.mp hchain).2 (fun x hx => hhi x (by simp [hx]))⟩
      intro y hy
      cases t2 with
      | nil =>
        rw [show setLast [b] v = [v] from rfl] at hy
        simp only [List.head?_cons, Option.mem_def, Option.some_inj] at hy
        subst hy
        exact hhi a (by simp)
      | cons c t3 =>
        rw [show setLast (b :: c :: t3) v = b :: setLast (c :: t3) v from rfl] at hy
        simp only [List.head?_cons, Option.mem_def, Option.some_inj] at hy
        subst hy
        exact (List.chain'_cons.mp hchain).1

theorem setHead_mem (l : List ℚ) (v x : ℚ) (hx : x ∈ setHead l v) : x = v ∨ x ∈ l := by
  cases l with
  | nil => simp [setHead] at hx
  | cons a t =>
    rw [show setHead (a :: t) v = v :: t from rfl] at hx
    rcases List.mem_cons.mp hx with h | h
    · exact Or.inl h
    · exact Or.inr (List.mem_cons.mpr (Or.inr h))

/-- Claim C10 as stated is false.  With `Ltot = 1`, `d = 1e-9`, `nActive = 1`,
`deadStart = 1`, `deadEnd = 0`, `k = 1` the capped start anchor is `Ls = 1e-9`, and
the sorted backbone lengths `[0, 2e-9, 3e-9, 1]` put `2e-9` inside the start
tolerance band `(Ls, Ls + 1e-9]`.  There the dead-zone ramp `deadStart * curL / Ls`
overshoots to `2`, while the next sample maps into the active zone near `1`, so the
turn-count list `[0, 2, 1 + 2/999999999, 2]` runs backwards. -/
theorem blended_turns_monotone_counterexample :
    ¬ List.Chain' (· ≤ ·)
      (blendedAnchorTurnsMap [0, 2e-9, 3e-9, 1] 1 1e-9 1 1 0 1 (95/100)).T := by
  have hguard : ¬ ((1 : ℚ) + 1 + 0 ≤ 1e-12 ∨ (1 : ℚ) ≤ 1e-12) := by
    push_neg
    constructor <;> norm_num
  have hclamp : clamp 1 0 1 = 1 := by
    rw [clamp]
    norm_num
  have hus : uncappedAnchor 1 1e-9 1 ((1 : ℚ) + 1 + 0) 1 = 1e-9 := by
    rw [uncappedAnchor, if_pos (by norm_num)]
    norm_num
  have hue : uncappedAnchor 1 1e-9 0 ((1 : ℚ) + 1 + 0) 1 = 0 := by
    rw [uncappedAnchor, if_pos (by norm_num)]
    norm_num
  have hA : blendedAnchors 1 1e-9 1 1 0 1 (95/100) = (1e-9, 0) := by
    simp only [blendedAnchors, hclamp, hus, hue]
    rw [if_neg fun hc => absurd hc.1 (by norm_num)]
  have hf0 : blendedTurnAt 1 1 0 1e-9 0 (1 - 0) 0 = 0 := by
    rw [blendedTurnAt, if_pos (by norm_num)]
    norm_num
  have hf1 : blendedTurnAt 1 1 0 1e-9 0 (1 - 0) 2e-9 = 2 := by
    rw [blendedTurnAt, if_pos (by norm_num),
      show max (1e-9 : ℚ) 1e-9 = 1e-9 from max_self _]
    norm_num
  have hf2 : blendedTurnAt 1 1 0 1e-9 0 (1 - 0) 3e-9 = 1 + 2/999999999 := by
    rw [blendedTurnAt, if_neg (by norm_num), if_neg (by norm_num),
      show max (1e-9 : ℚ) (1 - 0 - 1e-9) = 1 - 1e-9 from by
        rw [max_eq_right] <;> norm_num]
    rw [clamp, show min (1 : ℚ) ((3e-9 - 1e-9) / (1 - 1e-9)) = (3e-9 - 1e-9) / (1 - 1e-9)
        from by rw [min_eq_right]; norm_num,
      show max (0 : ℚ) ((3e-9 - 1e-9) / (1 - 1e-9)) = (3e-9 - 1e-9) / (1 - 1e-9)
        from by rw [max_eq_right]; norm_num]
    norm_num
  have hf3 : blendedTurnAt 1 1 0 1e-9 0 (1 - 0) 1 = 2 := by
    rw [blendedTurnAt, if_neg (by norm_num), if_pos (by norm_num)]
    norm_num
  have hT : (blendedAnchorTurnsMap [0, 2e-9, 3e-9, 1] 1 1e-9 1 1 0 1 (95/100)).T =
      [0, 2, 1 + 2/999999999, 1 + 1 + 0] := by
    rw [blendedAnchorTurnsMap]
    simp only [if_neg hguard, hA, List.map_cons, List.map_nil, hf0, hf1, hf2, hf3]
    rfl
  rw [hT]
  intro hch
  have h12 := (List.chain'_cons.mp (List.chain'_cons.mp hch).2).1
  norm_num at h12

/-- Claim C10, amended: for every sorted list of nonnegative accumulated lengths and
nonnegative `nActive, deadStart, deadEnd`, the returned turn-count list is
monotonically non-decreasing — provided no accumulated length falls strictly inside
the start tolerance band `(anchorLs, anchorLs + 1e-9]` (samples there are still
classified into the start dead zone but the linear ramp `deadStart * curL / anchorLs`
overshoots `deadStart`, which is the one way the map can run backwards). -/
theorem blended_turns_monotone (L : List ℚ)
    (Ltot d nActive deadStart deadEnd k capRatio : ℚ)
    (hchain : List.Chain' (· ≤ ·) L)
    (hpos : ∀ x ∈ L, 0 ≤ x)
    (hnA : 0 ≤ nActive) (hdS : 0 ≤ deadStart) (hdE : 0 ≤ deadEnd)
    (hband : ∀ x ∈ L,
      x ≤ (blendedAnchors Ltot d nActive deadStart deadEnd k capRatio).1 + 1e-9 →
      x ≤ (blendedAnchors Ltot d nActive deadStart deadEnd k capRatio).1) :
    List.Chain' (· ≤ ·)
      (blendedAnchorTurnsMap L Ltot d nActive deadStart deadEnd k capRatio).T := by
  by_cases hg : nActive + deadStart + deadEnd ≤ 1e-12 ∨ Ltot ≤ 1e-12
  · rw [blendedAnchorTurnsMap]
    simp only [if_pos hg]
    exact (List.chain'_map _).mpr (hchain.imp fun a b _ => le_refl (0 : ℚ))
  · rw [blendedAnchorTurnsMap]
    simp only [if_neg hg]
    have htc : 0 ≤ nActive + deadStart + deadEnd := by linarith
    have hmapped : List.Chain' (· ≤ ·)
        (L.map (blendedTurnAt deadStart nActive deadEnd
          (blendedAnchors Ltot d nActive deadStart deadEnd k capRatio).1
          (blendedAnchors Ltot d nActive deadStart deadEnd k capRatio).2
          (Ltot - (blendedAnchors Ltot d nActive deadStart deadEnd k capRatio).2))) :=
      chain'_map_blendedTurnAt _ _ _ _ _ _ hdS hnA hdE L hchain hpos hband
    apply chain'_setLast
    · apply chain'_setHead _ _ hmapped
      intro x hx
      obtain ⟨a, ha, rfl⟩ := List.mem_map.mp hx
      exact blendedTurnAt_nonneg _ _ _ _ _ _ _ hdS hnA hdE (hpos a ha)
    · intro x hx
      rcases setHead_mem _ _ _ hx with rfl | hx'
      · exact htc
      · obtain ⟨a, ha, rfl⟩ := List.mem_map.mp hx'
        have := blendedTurnAt_le_total deadStart nActive deadEnd
          (blendedAnchors Ltot d nActive deadStart deadEnd k capRatio).1
          (blendedAnchors Ltot d nActive deadStart deadEnd k capRatio).2
          (Ltot - (blendedAnchors Ltot d nActive deadStart deadEnd k capRatio).2)
          a hdS hnA hdE (hband a ha)
        linarith

/-- Witness for the amended C10: a three-point backbone whose lengths avoid the
start tolerance band; the resulting turn list is monotone. -/
theorem blended_turns_monotone_witness :
    List.Chain' (· ≤ ·)
      (blendedAnchorTurnsMap [0, 1/2, 1] 1 (1/10) 8 1 1 1 (95/100)).T := by
  have hclamp : clamp 1 0 1 = 1 := by
    rw [clamp]
    norm_num
  have hus : uncappedAnchor 1 (1/10) 1 ((8 : ℚ) + 1 + 1) 1 = 1/10 := by
    rw [uncappedAnchor, if_pos (by norm_num)]
    norm_num
  have hA : blendedAnchors 1 (1/10) 8 1 1 1 (95/100) = (1/10, 1/10) := by
    simp only [blendedAnchors, hclamp, hus]
    rw [if_neg fun hc => absurd hc.1 (by norm_num)]
  apply blended_turns_monotone [0, 1/2, 1] 1 (1/10) 8 1 1 1 (95/100)
  · exact List.chain'_cons.mpr ⟨by norm_num, List.chain'_cons.mpr ⟨by norm_num,
      List.chain'_singleton _⟩⟩
  · intro x hx
    fin_cases hx <;> norm_num
  · norm_num
  · norm_num
  · norm_num
  · intro x hx
    rw [hA]
    fin_cases hx <;> norm_num

/-! ## 3D vectors over `ℚ`

Exact-rational model of the `App.Vector` arithmetic used by the hook builders
(addition, subtraction, scalar multiplication, dot and cross products). -/

@[ext]
structure Vec3 where
  x : ℚ
  y : ℚ
  z : ℚ

instance : Zero Vec3 := ⟨⟨0, 0, 0⟩⟩

instance : Add Vec3 := ⟨fun a b => ⟨a.x + b.x, a.y + b.y, a.z + b.z⟩⟩

instance : Sub Vec3 := ⟨fun a b => ⟨a.x - b.x, a.y - b.y, a.z - b.z⟩⟩

instance : SMul ℚ Vec3 := ⟨fun c a => ⟨c * a.x, c * a.y, c * a.z⟩⟩

@[simp] theorem Vec3.zero_x : (0 : Vec3).x = 0 := rfl

@[simp] theorem Vec3.zero_y : (0 : Vec3).y = 0 := rfl

@[simp] theorem Vec3.zero_z : (0 : Vec3).z = 0 := rfl

@[simp] theorem Vec3.add_x (a b : Vec3) : (a + b).x = a.x + b.x := rfl

@[simp] theorem Vec3.add_y (a b : Vec3) : (a + b).y = a.y + b.y := rfl

@[simp] theorem Vec3.add_z (a b : Vec3) : (a + b).z = a.z + b.z := rfl

@[simp] theorem Vec3.sub_x (a b : Vec3) : (a - b).x = a.x - b.x := rfl

@[simp] theorem Vec3.sub_y (a b : Vec3) : (a - b).y = a.y - b.y := rfl

@[simp] theorem Vec3.sub_z (a b : Vec3) : (a - b).z = a.z - b.z := rfl

@[simp] theorem Vec3.smul_x (c : ℚ) (a : Vec3) : (c • a).x = c * a.x := rfl

@[simp] theorem Vec3.smul_y (c : ℚ) (a : Vec3) : (c • a).y = c * a.y := rfl

@[simp] theorem Vec3.smul_z (c : ℚ) (a : Vec3) : (c • a).z = c * a.z := rfl

/-- Dot product. -/
def dot (a b : Vec3) : ℚ := a.x * b.x + a.y * b.y + a.z * b.z

/-- Cross product (`radial_dir.cross(axis_dir)` in the sources). -/
def cross (a b : Vec3) : Vec3 :=
  ⟨a.y * b.z - a.z * b.y, a.z * b.x - a.x * b.z, a.x * b.y - a.y * b.x⟩

/-- Squared Euclidean norm. -/
def normSq (a : Vec3) : ℚ := dot a a

theorem normSq_pos (a : Vec3) (h : a ≠ 0) : 0 < normSq a := by
  rcases lt_or_eq_of_le (show 0 ≤ normSq a by
    simp only [normSq, dot]
    nlinarith [sq_nonneg a.x, sq_nonneg a.y, sq_nonneg a.z]) with hlt | heq
  · exact hlt
  · exfalso
    apply h
    have h0 : a.x ^ 2 + a.y ^ 2 + a.z ^ 2 = 0 := by
      simp only [normSq, dot] at heq
      nlinarith [heq]
    have hx : a.x = 0 := by nlinarith [sq_nonneg a.x, sq_nonneg a.y, sq_nonneg a.z]
    have hy : a.y = 0 := by nlinarith [sq_nonneg a.x, sq_nonneg a.y, sq_nonneg a.z]
    have hz : a.z = 0 := by nlinarith [sq_nonneg a.x, sq_nonneg a.y, sq_nonneg a.z]
    ext <;> simp [hx, hy, hz]

/-- "Normalized dot product exceeds 0.999 with positive sign", expressed in `ℚ`
without square roots: `dot a b > 0` and `(dot a b)² > 0.999² * |a|²|b|²`. -/
def normalizedDotGT (a b : Vec3) : Prop :=
  0 < dot a b ∧ (999/1000)^2 * (normSq a * normSq b) < (dot a b)^2

theorem dot_smul_left (c : ℚ) (a b : Vec3) : dot (c • a) b = c * dot a b := by
  simp only [dot, Vec3.smul_x, Vec3.smul_y, Vec3.smul_z]
  ring

theorem normSq_smul (c : ℚ) (a : Vec3) : normSq (c • a) = c^2 * normSq a := by
  simp only [normSq, dot, Vec3.smul_x, Vec3.smul_y, Vec3.smul_z]
  ring

/-- A positive multiple of a nonzero vector is "parallel within 0.999" to it. -/
theorem normalizedDotGT_smul_self (c : ℚ) (a : Vec3) (hc : 0 < c) (ha : a ≠ 0) :
    normalizedDotGT (c • a) a := by
  have hn := normSq_pos a ha
  constructor
  · rw [dot_smul_left]
    exact mul_pos hc hn
  · rw [dot_smul_left, normSq_smul]
    show (999/1000)^2 * (c^2 * normSq a * normSq a) < (c * (normSq a))^2
    nlinarith [mul_pos (mul_pos (mul_pos hc hc) hn) hn]

/-! ## Cubic Bezier curves

`cubic_bezier(p0, p1, p2, p3, t)` appears identically in hook_builder.py (line 157)
and run_export.py (line 541). -/

/-- `p0*(1-t)³ + p1*3(1-t)²t + p2*3(1-t)t² + p3*t³`. -/
def cubicBezier (p0 p1 p2 p3 : Vec3) (t : ℚ) : Vec3 :=
  ((1 - t)^3) • p0 + (3 * (1 - t)^2 * t) • p1 + (3 * (1 - t) * t^2) • p2 + (t^3) • p3

/-- First derivative (velocity) of the cubic Bezier in `t`. -/
def cubicBezierVel (p0 p1 p2 p3 : Vec3) (t : ℚ) : Vec3 :=
  (3 * (1 - t)^2) • (p1 - p0) + (6 * (1 - t) * t) • (p2 - p1) + (3 * t^2) • (p3 - p2)

/-- Second derivative of the cubic Bezier in `t`. -/
def cubicBezierAcc (p0 p1 p2 p3 : Vec3) (t : ℚ) : Vec3 :=
  (6 * (1 - t)) • (p2 - (2 : ℚ) • p1 + p0) + (6 * t) • (p3 - (2 : ℚ) • p2 + p1)

/-- Third derivative of the cubic Bezier. -/
def cubicBezierJerk (p0 p1 p2 p3 : Vec3) : Vec3 :=
  (6 : ℚ) • (p3 - (3 : ℚ) • p2 + (3 : ℚ) • p1 - p0)

/-- Taylor identity certifying that `cubicBezierVel` really is the derivative of the
sampled `cubicBezier` polynomial: the exact finite difference at any `t, h`. -/
theorem cubicBezier_taylor (p0 p1 p2 p3 : Vec3) (t h : ℚ) :
    cubicBezier p0 p1 p2 p3 (t + h) = cubicBezier p0 p1 p2 p3 t +
      h • cubicBezierVel p0 p1 p2 p3 t + (h^2 / 2) • cubicBezierAcc p0 p1 p2 p3 t +
      (h^3 / 6) • cubicBezierJerk p0 p1 p2 p3 := by
  ext <;>
    simp only [cubicBezier, cubicBezierVel, cubicBezierAcc, cubicBezierJerk,
      Vec3.add_x, Vec3.add_y, Vec3.add_z, Vec3.sub_x, Vec3.sub_y, Vec3.sub_z,
      Vec3.smul_x, Vec3.smul_y, Vec3.smul_z] <;>
    ring

theorem cubicBezierVel_zero (p0 p1 p2 p3 : Vec3) :
    cubicBezierVel p0 p1 p2 p3 0 = (3 : ℚ) • (p1 - p0) := by
  ext <;>
    simp only [cubicBezierVel, Vec3.add_x, Vec3.add_y, Vec3.add_z, Vec3.sub_x, Vec3.sub_y,
      Vec3.sub_z, Vec3.smul_x, Vec3.smul_y, Vec3.smul_z] <;>
    ring

theorem cubicBezierVel_one (p0 p1 p2 p3 : Vec3) :
    cubicBezierVel p0 p1 p2 p3 1 = (3 : ℚ) • (p3 - p2) := by
  ext <;>
    simp only [cubicBezierVel, Vec3.add_x, Vec3.add_y, Vec3.add_z, Vec3.sub_x, Vec3.sub_y,
      Vec3.sub_z, Vec3.smul_x, Vec3.smul_y, Vec3.smul_z] <;>
    ring

/-! ## Extension hook, run_export.py version

Embedding of `build_extension_hook_centerline` (run_export.py, lines 592-705) for
the end hook (`is_end = True`; the start hook uses the same formulas with the frame
mirrored).  `tHat` models the normalized helix tangent
`(end_pos - prev_pos).normalize()` and `v` models the unit loop-plane vector
`radial_dir × axis`; the loop start angle is `-π/2`, whose cosine and sine are the
exact values `0` and `-1`. -/

/-- Spring axial direction for the end hook: `App.Vector(0, 0, 1)`, already unit. -/
def axisU : Vec3 := ⟨0, 0, 1⟩

/-- `Dm = OD - d; R = Dm / 2` — mean radius. -/
def reMeanRadius (d OD : ℚ) : ℚ := (OD - d) / 2

/-- `hook_radius = R * hook_radius_factor` with `hook_radius_factor = 0.85`
(run_export.py lines 613, 619 — no `0.4*d` term here). -/
def reHookRadius (d OD : ℚ) : ℚ := reMeanRadius d OD * (17/20)

/-- `hook_gap = d * axial_gap_factor` with `axial_gap_factor = 1.2`. -/
def reHookGap (d : ℚ) : ℚ := d * (6/5)

/-- `handle_length = d * handle_length_factor` with `handle_length_factor = 2.0`. -/
def reHandleLength (d : ℚ) : ℚ := d * 2

/-- `loop_angle_deg = 160` (run_export.py line 616: "关键: 不是 270!"). -/
def reLoopAngleDeg : ℚ := 160

/-- `loop_center = App.Vector(0, 0, end_pos.z + hook_gap)` (end hook). -/
def reLoopCenter (endPos : Vec3) (d : ℚ) : Vec3 := ⟨0, 0, endPos.z + reHookGap d⟩

/-- First loop-arc point `hook_loop_pts[0] = center + u*(r*cos θ₀) + v*(r*sin θ₀)`
at `θ₀ = -π/2`: `cos θ₀ = 0`, `sin θ₀ = -1`. -/
def reAttachPoint (endPos v : Vec3) (d OD : ℚ) : Vec3 :=
  reLoopCenter endPos d + (reHookRadius d OD * 0) • axisU + (reHookRadius d OD * (-1)) • v

/-- `hook_tangent = u*(-sin θ₀) + v*cos θ₀` at `θ₀ = -π/2` — the loop arc's unit
tangent at its start point (run_export.py line 676). -/
def reHookTangent (v : Vec3) : Vec3 := (1 : ℚ) • axisU + (0 : ℚ) • v

/-- `control1 = end_pos + helix_tangent_dir * handle_length`. -/
def reControl1 (endPos tHat : Vec3) (d : ℚ) : Vec3 := endPos + reHandleLength d • tHat

/-- `control2 = attach_point - hook_tangent * handle_length`. -/
def reControl2 (endPos v : Vec3) (d OD : ℚ) : Vec3 :=
  reAttachPoint endPos v d OD - reHandleLength d • reHookTangent v

/-! ## Extension hook, hook_builder.py version

Embedding of the Segment-B Bezier controls of `build_hook_centerline`
(hook_builder.py, lines 243-304).  Its control points are offset radially+axially
by `0.5*d`, not along the local tangents. -/

/-- The `ℚ`-valued constants of a `HookSpec` (hook_builder.py lines 33-68). -/
structure HookSpecConsts where
  loopAngleDeg : ℚ
  axialGapFactor : ℚ
  radialOffsetFactor : ℚ
  hookRadiusFactor : ℚ
  handleLengthFactor : ℚ

/-- The `"machine"` spec (hook_builder.py lines 87-98): `loop_angle_deg = 160`,
`axial_gap_factor = 1.2`, `hook_radius_factor = 0.85`, `handle_length_factor = 2.0`;
loop start angle `-π/2`. -/
def machineSpec : HookSpecConsts := ⟨160, 6/5, 0, 17/20, 2⟩

/-- `hook_radius = R * spec.hook_radius_factor + d * 0.4` (hook_builder.py line 245). -/
def hbHookRadius (R d factor : ℚ) : ℚ := R * factor + d * (2/5)

/-- `hook_center = App.Vector(0, 0, end_pos.z + axis_dir.z * hook_gap)` (on-axis). -/
def hbHookCenter (endPos axisDir : Vec3) (d gapFactor : ℚ) : Vec3 :=
  ⟨0, 0, endPos.z + axisDir.z * (d * gapFactor)⟩

/-- `loop_pts[0] = hook_center + u*(r*cosθ₀) + v*(r*sinθ₀)` with `u = axis_dir`,
`v = radial_dir × axis_dir`; `cosStart`/`sinStart` are the exact cosine and sine of
`spec.loop_start_angle` (for `machine`, `θ₀ = -π/2`: `0` and `-1`). -/
def hbLoopPt0 (endPos axisDir radialDir : Vec3) (R d factor gapFactor cosStart sinStart : ℚ) :
    Vec3 :=
  hbHookCenter endPos axisDir d gapFactor + (hbHookRadius R d factor * cosStart) • axisDir +
    (hbHookRadius R d factor * sinStart) • cross radialDir axisDir

/-- `seg_a_end = end_pos + tangent_dir * (d * 1.0)` — Segment A end, the Bezier's `p0`. -/
def hbSegAEnd (endPos tangentDir : Vec3) (d : ℚ) : Vec3 := endPos + d • tangentDir

/-- `p1 = seg_a_end + radial_dir * (0.5*d) + axis_dir * (0.5*d)` (line 295). -/
def hbControl1 (endPos tangentDir radialDir axisDir : Vec3) (d : ℚ) : Vec3 :=
  hbSegAEnd endPos tangentDir d + ((1/2) * d) • radialDir + ((1/2) * d) • axisDir

/-- `p2 = loop_pts[0] - axis_dir * (0.5*d)` (line 296). -/
def hbControl2 (endPos axisDir radialDir : Vec3) (R d factor gapFactor cosStart sinStart : ℚ) :
    Vec3 :=
  hbLoopPt0 endPos axisDir radialDir R d factor gapFactor cosStart sinStart -
    ((1/2) * d) • axisDir

/-- Claim C6 as stated is false for `hook_builder.build_hook_centerline`: at a
machine end hook with `d = 2`, `R = 8`, helix end point `(8,0,10)`, XY tangent
`(0,1,0)`, radial `(1,0,0)`, axis `(0,0,1)`, the Segment-B Bezier velocity at
`t = 0` is `3 • ((d/2)·radial + (d/2)·axis) = (3,0,3)`, which is orthogonal to the
predecessor tangent `(0,1,0)` — not parallel to it (normalized dot `0`, not
`> 0.999`). -/
theorem hook_tangent_continuity_counterexample :
    ¬ normalizedDotGT
      (cubicBezierVel (hbSegAEnd ⟨8, 0, 10⟩ ⟨0, 1, 0⟩ 2)
        (hbControl1 ⟨8, 0, 10⟩ ⟨0, 1, 0⟩ ⟨1, 0, 0⟩ ⟨0, 0, 1⟩ 2)
        (hbControl2 ⟨8, 0, 10⟩ ⟨0, 0, 1⟩ ⟨1, 0, 0⟩ 8 2 (17/20) (6/5) 0 (-1))
        (hbLoopPt0 ⟨8, 0, 10⟩ ⟨0, 0, 1⟩ ⟨1, 0, 0⟩ 8 2 (17/20) (6/5) 0 (-1)) 0)
      ⟨0, 1, 0⟩ := by
  intro hpar
  have hdot : dot
      (cubicBezierVel (hbSegAEnd ⟨8, 0, 10⟩ ⟨0, 1, 0⟩ 2)
        (hbControl1 ⟨8, 0, 10⟩ ⟨0, 1, 0⟩ ⟨1, 0, 0⟩ ⟨0, 0, 1⟩ 2)
        (hbControl2 ⟨8, 0, 10⟩ ⟨0, 0, 1⟩ ⟨1, 0, 0⟩ 8 2 (17/20) (6/5) 0 (-1))
        (hbLoopPt0 ⟨8, 0, 10⟩ ⟨0, 0, 1⟩ ⟨1, 0, 0⟩ 8 2 (17/20) (6/5) 0 (-1)) 0)
      ⟨0, 1, 0⟩ = 0 := by
    simp only [cubicBezierVel, hbSegAEnd, hbControl1, hbControl2, hbLoopPt0, hbHookCenter,
      hbHookRadius, cross, dot, Vec3.add_x, Vec3.add_y, Vec3.add_z, Vec3.sub_x, Vec3.sub_y,
      Vec3.sub_z, Vec3.smul_x, Vec3.smul_y, Vec3.smul_z]
    norm_num
  rw [normalizedDotGT, hdot] at hpar
  exact absurd hpar.1 (by norm_num)

/-- Claim C6, amended: in `run_export.build_extension_hook_centerline` (unlike
`hook_builder.build_hook_centerline`) the Bezier control points are offset from the
two junction points exactly by `handleLengthFactor * wireDiameter = 2d` along the
helix tangent and the loop-arc start tangent respectively, so the Bezier velocity at
`t = 0` is a positive multiple of the helix tangent and at `t = 1` a positive
multiple of the loop-arc start tangent (normalized dot `1 > 0.999`). -/
theorem hook_tangent_continuity (endPos tHat v : Vec3) (d OD : ℚ)
    (hd : 0 < d) (ht : tHat ≠ 0) :
    (reControl1 endPos tHat d - endPos = (2 * d) • tHat ∧
     reAttachPoint endPos v d OD - reControl2 endPos v d OD = (2 * d) • reHookTangent v) ∧
    normalizedDotGT
      (cubicBezierVel endPos (reControl1 endPos tHat d) (reControl2 endPos v d OD)
        (reAttachPoint endPos v d OD) 0) tHat ∧
    normalizedDotGT
      (cubicBezierVel endPos (reControl1 endPos tHat d) (reControl2 endPos v d OD)
        (reAttachPoint endPos v d OD) 1) (reHookTangent v) := by
  have hofs1 : reControl1 endPos tHat d - endPos = (2 * d) • tHat := by
    ext <;>
      simp only [reControl1, reHandleLength, Vec3.add_x, Vec3.add_y, Vec3.add_z, Vec3.sub_x,
        Vec3.sub_y, Vec3.sub_z, Vec3.smul_x, Vec3.smul_y, Vec3.smul_z] <;>
      ring
  have hofs2 : reAttachPoint endPos v d OD - reControl2 endPos v d OD =
      (2 * d) • reHookTangent v := by
    ext <;>
      simp only [reControl2, reHandleLength, Vec3.add_x, Vec3.add_y, Vec3.add_z, Vec3.sub_x,
        Vec3.sub_y, Vec3.sub_z, Vec3.smul_x, Vec3.smul_y, Vec3.smul_z] <;>
      ring
  have hvel0 : cubicBezierVel endPos (reControl1 endPos tHat d) (reControl2 endPos v d OD)
      (reAttachPoint endPos v d OD) 0 = (6 * d) • tHat := by
    rw [cubicBezierVel_zero, hofs1]
    ext <;> simp only [Vec3.smul_x, Vec3.smul_y, Vec3.smul_z] <;> ring
  have hvel1 : cubicBezierVel endPos (reControl1 endPos tHat d) (reControl2 endPos v d OD)
      (reAttachPoint endPos v d OD) 1 = (6 * d) • reHookTangent v := by
    rw [cubicBezierVel_one, hofs2]
    ext <;> simp only [Vec3.smul_x, Vec3.smul_y, Vec3.smul_z] <;> ring
  have hhtne : reHookTangent v ≠ 0 := by
    intro h0
    have := congrArg Vec3.z h0
    simp [reHookTangent, axisU] at this
  refine ⟨⟨hofs1, hofs2⟩, ?_, ?_⟩
  · rw [hvel0]
    exact normalizedDotGT_smul_self (6 * d) tHat (by linarith) ht
  · rw [hvel1]
    exact normalizedDotGT_smul_self (6 * d) (reHookTangent v) (by linarith) hhtne

/-- Witness for the amended C6 at the concrete end hook `d = 2`, `OD = 18`,
endpoint `(8,0,10)`, helix tangent `(0,1,0)`, loop-plane vector `(0,-1,0)`. -/
theorem hook_tangent_continuity_witness :
    normalizedDotGT
      (cubicBezierVel ⟨8, 0, 10⟩ (reControl1 ⟨8, 0, 10⟩ ⟨0, 1, 0⟩ 2)
        (reControl2 ⟨8, 0, 10⟩ ⟨0, -1, 0⟩ 2 18)
        (reAttachPoint ⟨8, 0, 10⟩ ⟨0, -1, 0⟩ 2 18) 0) ⟨0, 1, 0⟩ ∧
    normalizedDotGT
      (cubicBezierVel ⟨8, 0, 10⟩ (reControl1 ⟨8, 0, 10⟩ ⟨0, 1, 0⟩ 2)
        (reControl2 ⟨8, 0, 10⟩ ⟨0, -1, 0⟩ 2 18)
        (reAttachPoint ⟨8, 0, 10⟩ ⟨0, -1, 0⟩ 2 18) 1) (reHookTangent ⟨0, -1, 0⟩) := by
  have h := hook_tangent_continuity ⟨8, 0, 10⟩ ⟨0, 1, 0⟩ ⟨0, -1, 0⟩ 2 18 (by norm_num)
    (by
      intro h0
      have := congrArg Vec3.y h0
      simp at this)
  exact ⟨h.2.1, h.2.2⟩

/-- Claim C7 as stated is false for `hook_builder.build_hook_centerline`: its machine
hook radius for `wireDiameter = 2`, mean radius `8` is
`0.85*8 + 0.4*2 = 7.6`, not `0.85*8 = 6.8`. -/
theorem machine_hook_radius_counterexample :
    ¬ (hbHookRadius 8 2 machineSpec.hookRadiusFactor = machineSpec.hookRadiusFactor * 8) := by
  rw [hbHookRadius, machineSpec]
  norm_num

/-- Claim C7, amended: in `run_export.build_extension_hook_centerline` the machine
hook loop radius for `wireDiameter = 2`, `outerDiameter = 18` (mean radius `8`) is
exactly `0.85 * 8 = 6.8` and the loop arc spans `160°` (in both implementations);
`hook_builder.build_hook_centerline` instead adds `0.4 * wireDiameter`, giving
`7.6`. -/
theorem machine_hook_radius_and_angle :
    reHookRadius 2 18 = (17/20) * 8 ∧ reLoopAngleDeg = 160 ∧
    machineSpec.loopAngleDeg = 160 ∧
    hbHookRadius 8 2 machineSpec.hookRadiusFactor = (17/20) * 8 + (2/5) * 2 := by
  refine ⟨?_, rfl, rfl, ?_⟩
  · rw [reHookRadius, reMeanRadius]
    norm_num
  · rw [hbHookRadius, machineSpec]
    norm_num

/-! ## Conical spring centerline

Embedding of the dead-coil bookkeeping and Z sampling of
`generate_conical_centerline` (run_export.py, lines 1924-2083).  The X/Y
coordinates (cosine/sine of the accumulated angle) do not enter any claim; the Z
values of the three sequentially generated segments are modelled exactly. -/

/-- `DEAD_PITCH = d * 0.95` (run_export.py line 1975) — deliberately slightly less
than the wire diameter. -/
def conicalDeadPitch (d : ℚ) : ℚ := d * (95/100)

structure ConicalParams where
  wireDiameter : ℚ
  largeOuterDiameter : ℚ
  smallOuterDiameter : ℚ
  activeCoils : ℚ
  totalCoils : ℚ
  freeLength : ℚ
  endType : String

/-- `has_dead_coils = end_type in ("closed", "closed_ground")` (line 1978). -/
def conicalHasDeadCoilsRequested (p : ConicalParams) : Bool :=
  p.endType == "closed" || p.endType == "closed_ground"

/-- Lines 1980-1987: `dead_turns_per_end = max(0, Nt - Na) / 2`, raised to `1.0`
when below `0.5`; `0` for open ends. -/
def conicalDeadTurnsPerEnd0 (p : ConicalParams) : ℚ :=
  if conicalHasDeadCoilsRequested p then
    (if max 0 (p.totalCoils - p.activeCoils) / 2 < 1/2 then 1
     else max 0 (p.totalCoils - p.activeCoils) / 2)
  else 0

/-- `dead_height_per_end = dead_turns_per_end * DEAD_PITCH` (line 1990). -/
def conicalDeadHeightPerEnd0 (p : ConicalParams) : ℚ :=
  conicalDeadTurnsPerEnd0 p * conicalDeadPitch p.wireDiameter

/-- `active_length = L0 - 2 * dead_height_per_end` (line 1991), before the fallback. -/
def conicalActiveLength0 (p : ConicalParams) : ℚ :=
  p.freeLength - 2 * conicalDeadHeightPerEnd0 p

/-- The dead/active partition after the open-end fallback.  `fellBackToOpenEnd`
mirrors the logged policy decision
`"[Conical] Warning: freeLength too short for dead coils, falling back to open end"`. -/
structure ConicalPartition where
  hasDeadCoils : Bool
  deadTurnsPerEnd : ℚ
  deadHeightPerEnd : ℚ
  activeLength : ℚ
  fellBackToOpenEnd : Bool

/-- Lines 1993-1999: if `active_length <= 0`, revert to open ends (no dead coils,
the whole free length active) and log; otherwise keep the requested partition. -/
def conicalPartition (p : ConicalParams) : ConicalPartition :=
  if conicalActiveLength0 p ≤ 0 then
    ⟨false, 0, 0, p.freeLength, true⟩
  else
    ⟨conicalHasDeadCoilsRequested p, conicalDeadTurnsPerEnd0 p, conicalDeadHeightPerEnd0 p,
      conicalActiveLength0 p, false⟩

/-- `num_samples = max(20, int(dead_turns_per_end * 50))` for each dead segment. -/
def conicalDeadNumSamples (p : ConicalParams) : ℕ :=
  max 20 (Int.toNat ⌊(conicalPartition p).deadTurnsPerEnd * 50⌋)

/-- Bottom dead-coil Z at sample `i`: `z = DEAD_PITCH * dead_turns_per_end * t`,
`t = i / num_samples` (lines 2017-2020, with `current_z = 0`). -/
def conicalBottomDeadZAt (p : ConicalParams) (i : ℕ) : ℚ :=
  conicalDeadPitch p.wireDiameter * (conicalPartition p).deadTurnsPerEnd *
    ((i : ℚ) / (conicalDeadNumSamples p : ℚ))

/-- The Z values of the bottom dead-coil segment. -/
def conicalBottomDeadZs (p : ConicalParams) : List ℚ :=
  (List.range (conicalDeadNumSamples p + 1)).map (conicalBottomDeadZAt p)

/-- Whether the bottom dead segment is emitted:
`if has_dead_coils and dead_turns_per_end > 0` (line 2015). -/
def conicalBottomEmitted (p : ConicalParams) : Prop :=
  (conicalPartition p).hasDeadCoils = true ∧ 0 < (conicalPartition p).deadTurnsPerEnd

instance (p : ConicalParams) : Decidable (conicalBottomEmitted p) := by
  unfold conicalBottomEmitted
  infer_instance

/-- `current_z` after the bottom block (line 2031): raised by `dead_height_per_end`
only when the bottom segment ran. -/
def conicalZ1 (p : ConicalParams) : ℚ :=
  if conicalBottomEmitted p then (conicalPartition p).deadHeightPerEnd else 0

/-- `num_samples = max(200, int(Na * 50))` for the active segment (line 2037). -/
def conicalActiveNumSamples (p : ConicalParams) : ℕ :=
  max 200 (Int.toNat ⌊p.activeCoils * 50⌋)

/-- Active-coil Z values: `z = current_z + active_length * t` (line 2042);
sample `i = 0` is skipped when dead coils are present (`if i > 0 or not
has_dead_coils`, line 2051). -/
def conicalActiveZs (p : ConicalParams) : List ℚ :=
  let base := (List.range (conicalActiveNumSamples p + 1)).map
    (fun i : ℕ => conicalZ1 p + (conicalPartition p).activeLength *
      ((i : ℚ) / (conicalActiveNumSamples p : ℚ)))
  if (conicalPartition p).hasDeadCoils = true then base.drop 1 else base

/-- Top dead-coil Z at sample `i`: `z = current_z + DEAD_PITCH * dead_turns_per_end * t`
with `current_z = z1 + active_length` after the active block (lines 2054-2066). -/
def conicalTopDeadZAt (p : ConicalParams) (i : ℕ) : ℚ :=
  (conicalZ1 p + (conicalPartition p).activeLength) +
    conicalDeadPitch p.wireDiameter * (conicalPartition p).deadTurnsPerEnd *
      ((i : ℚ) / (conicalDeadNumSamples p : ℚ))

/-- Top dead-coil Z values (lines 2061-2076): emitted under the same condition as
the bottom block, always skipping `i = 0`. -/
def conicalTopDeadZs (p : ConicalParams) : List ℚ :=
  if conicalBottomEmitted p then
    ((List.range (conicalDeadNumSamples p + 1)).map (conicalTopDeadZAt p)).drop 1
  else []

/-- The full conical centerline Z sequence: bottom dead coils, active coils, top
dead coils. -/
def conicalZList (p : ConicalParams) : List ℚ :=
  (if conicalBottomEmitted p then conicalBottomDeadZs p else []) ++
    conicalActiveZs p ++ conicalTopDeadZs p

theorem head?_map_range (f : ℕ → ℚ) (n : ℕ) :
    ((List.range (n + 1)).map f).head? = some (f 0) := by
  rw [List.range_succ_eq_map, List.map_cons, List.head?_cons]

theorem getLast?_map_range (f : ℕ → ℚ) (n : ℕ) :
    ((List.range (n + 1)).map f).getLast? = some (f n) := by
  rw [List.range_succ, List.map_append, List.map_cons, List.map_nil]
  exact List.getLast?_concat _

/-- Claim C8: when a conical spring is requested with closed or closed-ground ends
but the free length cannot accommodate the dead coils
(`freeLength - 2 * deadHeightPerEnd ≤ 0`), the generator does not fail: it reverts
to open ends (no dead coils, the whole free length active), records the logged
policy decision, and still returns a complete centerline running from `Z = 0` to
`Z = freeLength`. -/
theorem conical_open_end_fallback (p : ConicalParams)
    (hclosed : conicalHasDeadCoilsRequested p = true)
    (hshort : conicalActiveLength0 p ≤ 0) :
    (conicalPartition p).hasDeadCoils = false ∧
    (conicalPartition p).deadTurnsPerEnd = 0 ∧
    (conicalPartition p).activeLength = p.freeLength ∧
    (conicalPartition p).fellBackToOpenEnd = true ∧
    conicalZList p ≠ [] ∧
    (conicalZList p).head? = some 0 ∧
    (conicalZList p).getLast? = some p.freeLength := by
  have hpart : conicalPartition p = ⟨false, 0, 0, p.freeLength, true⟩ := by
    rw [conicalPartition, if_pos hshort]
  have hnotemit : ¬ conicalBottomEmitted p := by
    rw [conicalBottomEmitted, hpart]
    intro hc
    exact absurd hc.1 (by simp)
  have hz1 : conicalZ1 p = 0 := by
    rw [conicalZ1, if_neg hnotemit]
  have hns : (0 : ℚ) < (conicalActiveNumSamples p : ℚ) := by
    have h200 : (200 : ℕ) ≤ conicalActiveNumSamples p := le_max_left _ _
    have : (200 : ℚ) ≤ (conicalActiveNumSamples p : ℚ) := by exact_mod_cast h200
    linarith
  have hhd : (conicalPartition p).hasDeadCoils = false := by rw [hpart]
  have hactive : conicalActiveZs p = (List.range (conicalActiveNumSamples p + 1)).map
      (fun i : ℕ => conicalZ1 p + (conicalPartition p).activeLength *
        ((i : ℚ) / (conicalActiveNumSamples p : ℚ))) := by
    simp only [conicalActiveZs]
    rw [if_neg (by simp [hhd])]
  have hlist : conicalZList p = conicalActiveZs p := by
    rw [conicalZList, if_neg hnotemit, conicalTopDeadZs, if_neg hnotemit]
    simp
  refine ⟨by rw [hpart], by rw [hpart], by rw [hpart], by rw [hpart], ?_, ?_, ?_⟩
  · rw [hlist, hactive]
    intro hnil
    have := congrArg List.length hnil
    simp at this
  · rw [hlist, hactive, head?_map_range]
    simp [hz1]
  · rw [hlist, hactive, getLast?_map_range, hz1, hpart]
    simp only [Option.some_inj]
    rw [div_self (ne_of_gt hns)]
    ring

/-- Witness for C8: a closed-end conical spring with `freeLength = 1` too short for
its two dead coils (`d = 3`, `Na = 6`, `Nt = 8`, dead height `2.85` per end). -/
theorem conical_open_end_fallback_witness :
    (conicalPartition ⟨3, 30, 15, 6, 8, 1, "closed"⟩).hasDeadCoils = false ∧
    (conicalPartition ⟨3, 30, 15, 6, 8, 1, "closed"⟩).deadTurnsPerEnd = 0 ∧
    (conicalPartition ⟨3, 30, 15, 6, 8, 1, "closed"⟩).activeLength = (1 : ℚ) ∧
    (conicalPartition ⟨3, 30, 15, 6, 8, 1, "closed"⟩).fellBackToOpenEnd = true ∧
    conicalZList ⟨3, 30, 15, 6, 8, 1, "closed"⟩ ≠ [] ∧
    (conicalZList ⟨3, 30, 15, 6, 8, 1, "closed"⟩).head? = some 0 ∧
    (conicalZList ⟨3, 30, 15, 6, 8, 1, "closed"⟩).getLast? = some (1 : ℚ) := by
  have hreq : conicalHasDeadCoilsRequested ⟨3, 30, 15, 6, 8, 1, "closed"⟩ = true := by
    rfl
  have hdt : conicalDeadTurnsPerEnd0 ⟨3, 30, 15, 6, 8, 1, "closed"⟩ = 1 := by
    rw [conicalDeadTurnsPerEnd0, if_pos hreq]
    rw [show max (0 : ℚ) ((8 : ℚ) - 6) = 2 from by rw [max_eq_right] <;> norm_num]
    norm_num
  have hshort : conicalActiveLength0 ⟨3, 30, 15, 6, 8, 1, "closed"⟩ ≤ 0 := by
    rw [conicalActiveLength0, conicalDeadHeightPerEnd0, hdt, conicalDeadPitch]
    norm_num
  exact conical_open_end_fallback ⟨3, 30, 15, 6, 8, 1, "closed"⟩ hreq hshort

/-- Claim C9 as stated is false for the conical generator: for the closed-end
conical spring `d = 3, Na = 6, Nt = 8, L0 = 50` the bottom dead coil spans exactly
one turn, yet the Z reached at its last sample is `DEAD_PITCH * 1 = 2.85`, not
`wireDiameter * 1 = 3` — conical dead coils advance `0.95 * wireDiameter` per turn. -/
theorem conical_dead_pitch_counterexample :
    ¬ ((conicalBottomDeadZs ⟨3, 30, 15, 6, 8, 50, "closed"⟩).getLast? =
      some ((3 : ℚ) *
        (conicalPartition ⟨3, 30, 15, 6, 8, 50, "closed"⟩).deadTurnsPerEnd)) := by
  have hreq : conicalHasDeadCoilsRequested ⟨3, 30, 15, 6, 8, 50, "closed"⟩ = true := by
    rfl
  have hdt0 : conicalDeadTurnsPerEnd0 ⟨3, 30, 15, 6, 8, 50, "closed"⟩ = 1 := by
    rw [conicalDeadTurnsPerEnd0, if_pos hreq]
    rw [show max (0 : ℚ) ((8 : ℚ) - 6) = 2 from by rw [max_eq_right] <;> norm_num]
    norm_num
  have hdh0 : conicalDeadHeightPerEnd0 ⟨3, 30, 15, 6, 8, 50, "closed"⟩ = 57/20 := by
    rw [conicalDeadHeightPerEnd0, hdt0, conicalDeadPitch]
    norm_num
  have hal0 : conicalActiveLength0 ⟨3, 30, 15, 6, 8, 50, "closed"⟩ = 443/10 := by
    rw [conicalActiveLength0, hdh0]
    norm_num
  have hpart : conicalPartition ⟨3, 30, 15, 6, 8, 50, "closed"⟩ =
      ⟨true, 1, 57/20, 443/10, false⟩ := by
    rw [conicalPartition, if_neg (by rw [hal0]; norm_num)]
    rw [hreq, hdt0, hdh0, hal0]
  have hns : conicalDeadNumSamples ⟨3, 30, 15, 6, 8, 50, "closed"⟩ = 50 := by
    rw [conicalDeadNumSamples, hpart]
    norm_num
    rfl
  rw [conicalBottomDeadZs, getLast?_map_range, conicalBottomDeadZAt, hpart, hns,
    conicalDeadPitch]
  simp only [Option.some_inj]
  norm_num

/-- Claim C9, amended: compression dead coils — bottom and top — are generated at
pitch exactly `wireDiameter`: in the bottom dead region `zOfTurn n = wireDiameter * n`,
and between any two turn counts in the top dead region Z advances by
`wireDiameter` per turn.  Conical dead coils — bottom and top — are generated at
pitch `0.95 * wireDiameter` instead: each dead-coil sample step advances Z by
`0.95 * wireDiameter` times the per-sample turn increment
`deadTurnsPerEnd / numSamples`. -/
theorem dead_coil_pitch (p : CompressionParams) (pc : ConicalParams) :
    (∀ n : ℚ, 0 ≤ n → n ≤ deadCoilsPerEnd p → zOfTurn p n = p.wireDiameter * n) ∧
    (∀ n m : ℚ, deadCoilsPerEnd p < n → p.totalCoils - deadCoilsPerEnd p ≤ n →
      deadCoilsPerEnd p < m → p.totalCoils - deadCoilsPerEnd p ≤ m →
      zOfTurn p m - zOfTurn p n = p.wireDiameter * (m - n)) ∧
    (∀ i : ℕ, conicalBottomDeadZAt pc (i + 1) - conicalBottomDeadZAt pc i =
      ((95/100) * pc.wireDiameter) *
        ((conicalPartition pc).deadTurnsPerEnd / (conicalDeadNumSamples pc : ℚ))) ∧
    (∀ i : ℕ, conicalTopDeadZAt pc (i + 1) - conicalTopDeadZAt pc i =
      ((95/100) * pc.wireDiameter) *
        ((conicalPartition pc).deadTurnsPerEnd / (conicalDeadNumSamples pc : ℚ))) := by
  have hns : ((conicalDeadNumSamples pc : ℚ)) ≠ 0 := by
    have h20 : (20 : ℕ) ≤ conicalDeadNumSamples pc := le_max_left _ _
    have : (20 : ℚ) ≤ (conicalDeadNumSamples pc : ℚ) := by exact_mod_cast h20
    intro h0
    rw [h0] at this
    norm_num at this
  refine ⟨?_, ?_, ?_, ?_⟩
  · intro n _ hn
    rw [zOfTurn, if_pos hn, zBottomDead, pitchDead]
  · intro n m hn1 hn2 hm1 hm2
    rw [zOfTurn, if_neg (not_le.mpr hm1), if_pos hm2,
      zOfTurn, if_neg (not_le.mpr hn1), if_pos hn2]
    simp only [zTopDead, bottomDeadHeight, pitchDead]
    ring
  · intro i
    rw [conicalBottomDeadZAt, conicalBottomDeadZAt, conicalDeadPitch]
    push_cast
    field_simp
    ring
  · intro i
    rw [conicalTopDeadZAt, conicalTopDeadZAt, conicalDeadPitch]
    push_cast
    field_simp
    ring

/-- Witness for the amended C9: the example compression spring at half a bottom dead
turn and across its last half top dead turn, and the first bottom and top dead-coil
steps of the closed conical spring. -/
theorem dead_coil_pitch_witness :
    zOfTurn ⟨10, 8, 24, 16/5, 50, 0⟩ (1/2) = (16/5) * (1/2) ∧
    zOfTurn ⟨10, 8, 24, 16/5, 50, 0⟩ 10 - zOfTurn ⟨10, 8, 24, 16/5, 50, 0⟩ (19/2) =
      (16/5) * (10 - 19/2) ∧
    conicalBottomDeadZAt ⟨3, 30, 15, 6, 8, 50, "closed"⟩ 1 -
      conicalBottomDeadZAt ⟨3, 30, 15, 6, 8, 50, "closed"⟩ 0 =
      ((95/100) * 3) *
        ((conicalPartition ⟨3, 30, 15, 6, 8, 50, "closed"⟩).deadTurnsPerEnd /
          (conicalDeadNumSamples ⟨3, 30, 15, 6, 8, 50, "closed"⟩ : ℚ)) ∧
    conicalTopDeadZAt ⟨3, 30, 15, 6, 8, 50, "closed"⟩ 1 -
      conicalTopDeadZAt ⟨3, 30, 15, 6, 8, 50, "closed"⟩ 0 =
      ((95/100) * 3) *
        ((conicalPartition ⟨3, 30, 15, 6, 8, 50, "closed"⟩).deadTurnsPerEnd /
          (conicalDeadNumSamples ⟨3, 30, 15, 6, 8, 50, "closed"⟩ : ℚ)) := by
  refine ⟨?_, ?_, ?_, ?_⟩
  · have h := (dead_coil_pitch ⟨10, 8, 24, 16/5, 50, 0⟩ ⟨3, 30, 15, 6, 8, 50, "closed"⟩).1
      (1/2) (by norm_num) (by norm_num [deadCoilsPerEnd, deadCoils])
    simpa using h
  · have h := (dead_coil_pitch ⟨10, 8, 24, 16/5, 50, 0⟩ ⟨3, 30, 15, 6, 8, 50, "closed"⟩).2.1
      (19/2) 10 (by norm_num [deadCoilsPerEnd, deadCoils])
      (by norm_num [deadCoilsPerEnd, deadCoils])
      (by norm_num [deadCoilsPerEnd, deadCoils])
      (by norm_num [deadCoilsPerEnd, deadCoils])
    simpa using h
  · exact (dead_coil_pitch ⟨10, 8, 24, 16/5, 50, 0⟩ ⟨3, 30, 15, 6, 8, 50, "closed"⟩).2.2.1 0
  · exact (dead_coil_pitch ⟨10, 8, 24, 16/5, 50, 0⟩ ⟨3, 30, 15, 6, 8, 50, "closed"⟩).2.2.2 0

end SpringPlatform
